import Mathlib

/-!
Verification of the transposable-elements genome container.

The Python source (src/genome.py) defines two implementations of a circular
genome holding transposable elements (TEs): `ListGenome` (a dense list of
integer tags) and `LinkedListGenome` (an array-backed circular doubly linked
list).  This file gives a shallow embedding of both classes and proves, or
refutes, the specified properties.

Conventions of the embedding:
* Python exceptions (IndexError on list indexing, ValueError from
  `list.index`, a write to an out-of-range index) are modelled by `Option`:
  an operation returns `none` exactly when the Python call raises.
* `copy_te` returns `Option (Option Nat × _)`: the outer `Option` is the
  exception, the inner one Python's `None` no-op sentinel.
* A Python `dict` is an insertion-ordered association list with unique keys;
  `d[k] = v` updates in place when the key is present and appends otherwise
  (`dictSet`), `del d[k]` removes the unique entry with that key (`keyDel`),
  `k in d` is `keyMem`, and iteration order is list order.
* Python list indexing `xs[i]` supports negative indices (`pyGetIdx`), and
  `xs[p:p] = ys` splices at the (always clamped, here already validated)
  position `p`.
* The generator `_nucleotides` is a while loop; it is modelled with explicit
  fuel (`next.length` suffices for every terminating Python traversal, and a
  traversal that would loop forever or raise yields `none`).
-/

/-- Python list read `xs[i]` index resolution for a list of length `n`:
nonnegative indices must be `< n`, negative indices count from the end and
must be `≥ -n`; anything else raises IndexError (`none`). -/
def pyGetIdx (n : Nat) (pos : Int) : Option Nat :=
  if 0 ≤ pos then
    if pos < (n : Int) then some pos.toNat else none
  else
    if -(n : Int) ≤ pos then some (pos + (n : Int)).toNat else none

/-- Python `k in d` for a dict modelled as an association list. -/
def keyFind {β : Type} : List (Nat × β) → Nat → Option β
  | [], _ => none
  | (a, b) :: t, k => if a = k then some b else keyFind t k

/-- Python `del d[k]` (on dict states, keys are unique, so filtering away
every entry with the key is the same as deleting the one entry). -/
def keyDel {β : Type} (m : List (Nat × β)) (k : Nat) : List (Nat × β) :=
  m.filter (fun q => q.1 != k)

/-- Python `d[k] = v`: update in place if the key is present, else append. -/
def dictSet {β : Type} (m : List (Nat × β)) (k : Nat) (v : β) : List (Nat × β) :=
  if (keyFind m k).isSome then
    m.map (fun q => if q.1 = k then (k, v) else q)
  else
    m ++ [(k, v)]

/-- The character the renderer assigns to a tag: '-' for untouched, 'A' for a
currently-active TE id, 'x' for any other nonzero tag (shared by both
implementations of `__str__`). -/
def tagChar {β : Type} (act : List (Nat × β)) (a : Nat) : Char :=
  if a = 0 then '-' else if (keyFind act a).isSome then 'A' else 'x'

/-- The collision rule shared by both insert implementations: if the hit
tag is a currently-active id, delete it from the registry, else keep the
registry (`if self.nuc[...] in self.active: del self.active[...]`). -/
def collide {β : Type} (m : List (Nat × β)) (hit : Nat) : List (Nat × β) :=
  if (keyFind m hit).isSome then keyDel m hit else m

/-- Checked write `xs[i] = v`: Python raises IndexError when `i` is out of
range (negative indices never occur at the write sites of the source). -/
def setChecked (xs : List Nat) (i : Nat) (v : Nat) : Option (List Nat) :=
  if i < xs.length then some (xs.set i v) else none

/-- `ListGenome`: the dense implementation.  `nuc` is the list of tags,
`active` maps an active TE id to its length, `next_te_id` mints ids. -/
structure ListGenome where
  next_te_id : Nat
  nuc : List Nat
  active : List (Nat × Nat)
deriving Repr, DecidableEq

namespace ListGenome

/-- `ListGenome.__init__`. -/
def new (n : Nat) : ListGenome :=
  { next_te_id := 1, nuc := List.replicate n 0, active := [] }

/-- `ListGenome.insert_te`.  Reads `nuc[pos]` (IndexError -> `none`),
deactivates the TE tagged there if active, mints the id, records the length,
and splices `length` copies of the new tag at `pos`. -/
def insert_te (g : ListGenome) (pos : Int) (length : Nat) :
    Option (Nat × ListGenome) :=
  match pyGetIdx g.nuc.length pos with
  | none => none
  | some p =>
    some (g.next_te_id,
      { next_te_id := g.next_te_id + 1,
        nuc := g.nuc.take p ++ List.replicate length g.next_te_id ++
          g.nuc.drop p,
        active := dictSet (collide g.active (g.nuc.getD p 0))
          g.next_te_id length })

/-- `ListGenome.copy_te`.  Sentinel `some (none, g)` when `te` is inactive;
otherwise finds the first slot tagged `te` (ValueError -> `none`) and inserts
a fresh TE of the same length at `(pos + offset) % len(nuc)` (Python `%`,
i.e. `Int.emod` = `%`, with a positive modulus). -/
def copy_te (g : ListGenome) (te : Nat) (offset : Int) :
    Option (Option Nat × ListGenome) :=
  match keyFind g.active te with
  | none => some (none, g)
  | some length =>
    match g.nuc.findIdx? (· = te) with
    | none => none
    | some pos =>
      match g.insert_te ((((pos : Int) + offset) % (g.nuc.length : Int)))
          length with
      | none => none
      | some (id, g2) => some (some id, g2)

/-- `ListGenome.disable_te`. -/
def disable_te (g : ListGenome) (te : Nat) : ListGenome :=
  if (keyFind g.active te).isSome then { g with active := keyDel g.active te }
  else g

/-- `ListGenome.active_tes`: the keys of `active` in insertion order. -/
def active_tes (g : ListGenome) : List Nat :=
  g.active.map Prod.fst

/-- `ListGenome.__len__`. -/
def len (g : ListGenome) : Nat := g.nuc.length

/-- `ListGenome.__str__`. -/
def str (g : ListGenome) : String :=
  ⟨g.nuc.map (tagChar g.active)⟩

end ListGenome

/-- `LinkedListGenome`: the array-backed circular doubly-linked
implementation.  `active` maps an id to the pair (anchor node index of its
first slot at creation time, length). -/
structure LinkedListGenome where
  next_te_id : Nat
  nuc : List Nat
  next : List Nat
  prev : List Nat
  active : List (Nat × (Nat × Nat))
deriving Repr, DecidableEq

namespace LinkedListGenome

/-- `LinkedListGenome.__init__`. -/
def new (n : Nat) : LinkedListGenome :=
  { next_te_id := 1,
    nuc := List.replicate n 0,
    next := (List.range n).map (fun i => (i + 1) % n),
    prev := (List.range n).map (fun i => (i + n - 1) % n),
    active := [] }

/-- The loop of `_get_index` / the nonnegative branch of `_move_offset`:
`k` steps of `i = self.next[i]` (IndexError -> `none`). -/
def walkNext (l : LinkedListGenome) : Nat → Nat → Option Nat
  | 0, i => some i
  | k + 1, i =>
    match l.next.get? i with
    | none => none
    | some j => l.walkNext k j

/-- The negative branch of `_move_offset`: `k` steps of `i = self.prev[i]`. -/
def walkPrev (l : LinkedListGenome) : Nat → Nat → Option Nat
  | 0, i => some i
  | k + 1, i =>
    match l.prev.get? i with
    | none => none
    | some j => l.walkPrev k j

/-- `LinkedListGenome._get_index`: walk `pos` next-steps from node 0
(for a negative `pos`, `range(pos)` is empty and the result is node 0). -/
def get_index (l : LinkedListGenome) (pos : Int) : Option Nat :=
  l.walkNext pos.toNat 0

/-- `LinkedListGenome._insert_te_at_index`.  Reads `nuc[i]` and `prev[i]`,
deactivates a hit TE, appends `length` fresh nodes tagged with the new id,
links them in between `prev[i]` and `i`, and anchors the new TE at the first
fresh node.  For `length = 0` Python's `range(length - 1)` is empty, exactly
like `List.range (length - 1)` under truncated subtraction. -/
def insert_te_at_index (l : LinkedListGenome) (i : Nat) (length : Nat) :
    Option (Nat × LinkedListGenome) :=
  match l.nuc.get? i with
  | none => none
  | some hit =>
    match l.prev.get? i with
    | none => none
    | some j =>
      match setChecked (l.next ++
          ((List.range (length - 1)).map (fun k => l.nuc.length + k + 1) ++
            [i])) j l.nuc.length with
      | none => none
      | some next3 =>
        match setChecked (l.prev ++
            (j :: (List.range (length - 1)).map (fun k => l.nuc.length + k)))
            i (l.nuc.length + length - 1) with
        | none => none
        | some prev3 =>
          some (l.next_te_id,
            { next_te_id := l.next_te_id + 1,
              nuc := l.nuc ++ List.replicate length l.next_te_id,
              next := next3, prev := prev3,
              active := dictSet (collide l.active hit) l.next_te_id
                (l.nuc.length, length) })

/-- `LinkedListGenome.insert_te`. -/
def insert_te (l : LinkedListGenome) (pos : Int) (length : Nat) :
    Option (Nat × LinkedListGenome) :=
  match l.get_index pos with
  | none => none
  | some i => l.insert_te_at_index i length

/-- `LinkedListGenome._move_offset`. -/
def move_offset (l : LinkedListGenome) (i : Nat) (offset : Int) : Option Nat :=
  if 0 ≤ offset then l.walkNext offset.toNat i
  else l.walkPrev (-offset).toNat i

/-- `LinkedListGenome.copy_te`. -/
def copy_te (l : LinkedListGenome) (te : Nat) (offset : Int) :
    Option (Option Nat × LinkedListGenome) :=
  match keyFind l.active te with
  | none => some (none, l)
  | some (pos, length) =>
    match l.move_offset pos offset with
    | none => none
    | some i =>
      match l.insert_te_at_index i length with
      | none => none
      | some (id, l2) => some (some id, l2)

/-- `LinkedListGenome.disable_te`. -/
def disable_te (l : LinkedListGenome) (te : Nat) : LinkedListGenome :=
  if (keyFind l.active te).isSome then { l with active := keyDel l.active te }
  else l

/-- `LinkedListGenome.active_tes`. -/
def active_tes (l : LinkedListGenome) : List Nat :=
  l.active.map Prod.fst

/-- `LinkedListGenome.__len__`. -/
def len (l : LinkedListGenome) : Nat := l.nuc.length

/-- The while loop of the `_nucleotides` generator: collect tags from node
`i` following `next` until node 0 reappears.  `fuel` bounds the step count:
a terminating Python run visits at most `next.length` distinct nodes, so
fuel `next.length` is exact; running out of fuel models the infinite loop. -/
def tagsFrom (l : LinkedListGenome) : Nat → Nat → Option (List Nat)
  | 0, _ => none
  | fuel + 1, i =>
    if i = 0 then some []
    else
      match l.nuc.get? i, l.next.get? i with
      | some a, some j => (l.tagsFrom fuel j).map (fun ts => a :: ts)
      | _, _ => none

/-- `LinkedListGenome._nucleotides`: tag of node 0, then the loop. -/
def tags (l : LinkedListGenome) : Option (List Nat) :=
  match l.nuc.get? 0, l.next.get? 0 with
  | some a, some j => (l.tagsFrom l.next.length j).map (fun ts => a :: ts)
  | _, _ => none

/-- `LinkedListGenome.__str__` (raises, i.e. `none`, exactly when the
traversal raises or diverges). -/
def str (l : LinkedListGenome) : Option String :=
  (l.tags).map (fun ts => ⟨ts.map (tagChar l.active)⟩)

end LinkedListGenome

/-- One call of the common genome interface. -/
inductive Op where
  | ins (pos : Int) (length : Nat)
  | cpy (te : Nat) (offset : Int)
  | dis (te : Nat)
deriving Repr, DecidableEq

/-- One interface call on the dense genome; `none` when Python raises, else
the id the call returned (if any) and the new state. -/
def ListGenome.step (g : ListGenome) : Op → Option (Option Nat × ListGenome)
  | Op.ins pos length =>
    match g.insert_te pos length with
    | none => none
    | some (id, g2) => some (some id, g2)
  | Op.cpy te offset => g.copy_te te offset
  | Op.dis te => some (none, g.disable_te te)

/-- One interface call on the linked genome. -/
def LinkedListGenome.step (l : LinkedListGenome) :
    Op → Option (Option Nat × LinkedListGenome)
  | Op.ins pos length =>
    match l.insert_te pos length with
    | none => none
    | some (id, l2) => some (some id, l2)
  | Op.cpy te offset => l.copy_te te offset
  | Op.dis te => some (none, l.disable_te te)

/-- Run a call sequence on the dense genome; `none` as soon as a call
raises. -/
def ListGenome.run (g : ListGenome) : List Op → Option ListGenome
  | [] => some g
  | op :: ops =>
    match g.step op with
    | none => none
    | some (_, g2) => g2.run ops

/-- Run a call sequence on the linked genome. -/
def LinkedListGenome.run (l : LinkedListGenome) : List Op → Option LinkedListGenome
  | [] => some l
  | op :: ops =>
    match l.step op with
    | none => none
    | some (_, l2) => l2.run ops

/-- Run a call sequence on the dense genome collecting every minted id in
order. -/
def ListGenome.runIds (g : ListGenome) : List Op → Option (List Nat × ListGenome)
  | [] => some ([], g)
  | op :: ops =>
    match g.step op with
    | none => none
    | some (id, g2) =>
      match g2.runIds ops with
      | none => none
      | some (ids, g3) => some (id.toList ++ ids, g3)

/-- Run a call sequence on the linked genome collecting every minted id. -/
def LinkedListGenome.runIds (l : LinkedListGenome) :
    List Op → Option (List Nat × LinkedListGenome)
  | [] => some ([], l)
  | op :: ops =>
    match l.step op with
    | none => none
    | some (id, l2) =>
      match l2.runIds ops with
      | none => none
      | some (ids, l3) => some (id.toList ++ ids, l3)

/-! ### Specification-layer definitions (invariants, refinement relation) -/

/-- Element `k` of a node listing, defaulting to 0. -/
def nthv (vs : List Nat) (k : Nat) : Nat := vs.getD k 0

/-- The tags of the linked genome read off along a node listing `vs`. -/
def tagsOf (l : LinkedListGenome) (vs : List Nat) : List Nat :=
  vs.map (fun v => l.nuc.getD v 0)

/-- `vs` lists the nodes of the linked genome in circular order: the three
arrays have length `vs.length`, `vs` enumerates every node exactly once, and
`next`/`prev` move one step forward/backward along `vs`, cyclically. -/
def Cyc (l : LinkedListGenome) (vs : List Nat) : Prop :=
  0 < vs.length ∧
  l.nuc.length = vs.length ∧
  l.next.length = vs.length ∧
  l.prev.length = vs.length ∧
  vs.Perm (List.range vs.length) ∧
  (∀ k, k < vs.length →
    l.next.getD (nthv vs k) 0 = nthv vs ((k + 1) % vs.length)) ∧
  (∀ k, k < vs.length →
    l.prev.getD (nthv vs k) 0 = nthv vs ((k + vs.length - 1) % vs.length))

/-- A circular node listing that starts at the render origin, node 0. -/
def CWF (l : LinkedListGenome) (vs : List Nat) : Prop :=
  Cyc l vs ∧ nthv vs 0 = 0

/-- The node of the circular listing at cyclic position `a` (any `Nat`). -/
def cycNode (vs : List Nat) (a : Nat) : Nat := nthv vs (a % vs.length)

/-- The node of the circular listing at cyclic position `z` (any `Int`). -/
def cycNodeI (vs : List Nat) (z : Int) : Nat :=
  nthv vs (z % (vs.length : Int)).toNat

/-- Tag `t` occupies exactly the slots `[p, p + k)` of the tag list `xs`
and no other slot of `xs` carries tag `t`. -/
def IsBlockAt (xs : List Nat) (t k p : Nat) : Prop :=
  p + k ≤ xs.length ∧
  ∀ i, i < xs.length → (xs.getD i 0 = t ↔ (p ≤ i ∧ i < p + k))

/-- Tag `t` occupies exactly `k` contiguous slots of `xs` (somewhere). -/
def IsBlock (xs : List Nat) (t k : Nat) : Prop :=
  ∃ p, p < xs.length + 1 ∧ IsBlockAt xs t k p

/-- Invariant of the dense genome: ids are minted from 1, every tag is a
spent id (less than the mint counter), active keys are distinct, and every
active TE of length `k` owns an exact contiguous block of `k` slots. -/
def DInv (g : ListGenome) : Prop :=
  1 ≤ g.next_te_id ∧
  (∀ v ∈ g.nuc, v < g.next_te_id) ∧
  (g.active.map Prod.fst).Nodup ∧
  (∀ q ∈ g.active, 1 ≤ q.1 ∧ q.1 < g.next_te_id ∧ 1 ≤ q.2 ∧
    IsBlock g.nuc q.1 q.2)

/-- Invariant of the linked genome: some circular listing `vs` starting at
node 0 is coherent, ids are minted from 1, every tag is a spent id, active
keys are distinct, and every active entry `(t, (a, k))` has its anchor `a` at
the circular position `m` at which its exact `k`-slot block starts in the
traversal tag order. -/
def LInv (l : LinkedListGenome) (vs : List Nat) : Prop :=
  CWF l vs ∧
  1 ≤ l.next_te_id ∧
  (∀ v ∈ l.nuc, v < l.next_te_id) ∧
  (l.active.map Prod.fst).Nodup ∧
  (∀ q ∈ l.active, 1 ≤ q.1 ∧ q.1 < l.next_te_id ∧ 1 ≤ q.2.2 ∧
    ∃ m, m < vs.length ∧ nthv vs m = q.2.1 ∧
      IsBlockAt (tagsOf l vs) q.1 q.2.2 m)

/-- Refinement relation between a dense and a linked genome: both invariants
hold on the same circular listing, the traversal tag order of the linked
genome is exactly the dense tag list, the mint counters agree, and the
active registries agree entrywise (linked anchors projected away). -/
def Sim (g : ListGenome) (l : LinkedListGenome) (vs : List Nat) : Prop :=
  DInv g ∧ LInv l vs ∧
  g.next_te_id = l.next_te_id ∧
  tagsOf l vs = g.nuc ∧
  l.active.map (fun q => (q.1, q.2.2)) = g.active

/-- The explicit result state of `_insert_te_at_index i length` on the
linked genome, once the reads/writes are known to be in range. -/
def spliceLinked (l : LinkedListGenome) (i : Nat) (len : Nat) :
    LinkedListGenome :=
  let j := l.prev.getD i 0
  let n := l.nuc.length
  { next_te_id := l.next_te_id + 1,
    nuc := l.nuc ++ List.replicate len l.next_te_id,
    next := (l.next ++
      ((List.range (len - 1)).map (fun k => n + k + 1) ++ [i])).set j n,
    prev := (l.prev ++
      (j :: (List.range (len - 1)).map (fun k => n + k))).set i (n + len - 1),
    active := dictSet (collide l.active (l.nuc.getD i 0))
      l.next_te_id (n, len) }

/-- The node listing after splicing `len` fresh nodes (numbered from `n`)
at cut position `m`. -/
def vsCut (vs : List Nat) (n m len : Nat) : List Nat :=
  vs.take m ++ (List.range len).map (fun k => n + k) ++ vs.drop m

/-- The validity check on one interface call used for the
dense/linked equivalence: insertions use a position strictly between 0 and
the current length and a positive length, and a copy of an active TE must
not target circular position 0 (there the two implementations render the
genome starting at different slots). -/
def okOpB (g : ListGenome) : Op → Bool
  | Op.ins pos length =>
    decide (1 ≤ pos) && decide (pos < (g.nuc.length : Int)) &&
      decide (1 ≤ length)
  | Op.cpy te offset =>
    match keyFind g.active te, g.nuc.findIdx? (· = te) with
    | some _, some q =>
      decide ((((q : Int) + offset) % (g.nuc.length : Int)) ≠ 0)
    | some _, none => false
    | none, _ => true
  | Op.dis _ => true

/-- Validity of a call sequence, checked along the dense run. -/
def okSeq (g : ListGenome) : List Op → Bool
  | [] => true
  | op :: ops =>
    okOpB g op &&
      (match g.step op with
       | none => false
       | some (_, g2) => okSeq g2 ops)

/-- Every insertion of the call sequence has length at least 1. -/
def insLenOK : List Op → Bool
  | [] => true
  | Op.ins _ length :: ops => decide (1 ≤ length) && insLenOK ops
  | _ :: ops => insLenOK ops

/-- The call sequence of the end-to-end golden-vector scenario. -/
def goldenOps : List Op :=
  [Op.ins 5 10, Op.ins 10 10, Op.cpy 2 20, Op.cpy 2 (-15), Op.ins 50 10,
   Op.dis 3]

/-- The expected final render string of the golden-vector scenario. -/
def goldenStr : String :=
  "-----xxxxxAAAAAAAAAAxxxxx-----xxxxxxxxxx-----xxxxxAAAAAAAAAAxxxxx-----"

/-! ### Decidability of the invariants (used to evaluate concrete states) -/

instance (l : LinkedListGenome) (vs : List Nat) : Decidable (Cyc l vs) := by
  unfold Cyc nthv; exact inferInstance

instance (l : LinkedListGenome) (vs : List Nat) : Decidable (CWF l vs) := by
  unfold CWF nthv; exact inferInstance

instance (xs : List Nat) (t k p : Nat) : Decidable (IsBlockAt xs t k p) := by
  unfold IsBlockAt; exact inferInstance

instance (xs : List Nat) (t k : Nat) : Decidable (IsBlock xs t k) := by
  unfold IsBlock; exact inferInstance

instance (g : ListGenome) : Decidable (DInv g) := by
  unfold DInv; exact inferInstance

instance (l : LinkedListGenome) (vs : List Nat) : Decidable (LInv l vs) := by
  unfold LInv nthv; exact inferInstance

instance (g : ListGenome) (l : LinkedListGenome) (vs : List Nat) :
    Decidable (Sim g l vs) := by
  unfold Sim; exact inferInstance

/-! ### Association-list (Python dict) lemmas -/

theorem keyFind_append_none {β : Type} (m1 m2 : List (Nat × β)) (k : Nat)
    (h : keyFind m1 k = none) : keyFind (m1 ++ m2) k = keyFind m2 k := by
  induction m1 with
  | nil => simp
  | cons q t ih =>
    rw [List.cons_append, keyFind]
    rw [keyFind] at h
    by_cases hq : q.1 = k
    · simp [hq] at h
    · simp only [hq, if_false] at h ⊢
      exact ih h

theorem keyFind_append_some {β : Type} (m1 m2 : List (Nat × β)) (k : Nat)
    (v : β) (h : keyFind m1 k = some v) : keyFind (m1 ++ m2) k = some v := by
  induction m1 with
  | nil => simp [keyFind] at h
  | cons q t ih =>
    rw [List.cons_append, keyFind]
    rw [keyFind] at h
    by_cases hq : q.1 = k
    · simpa [hq] using h
    · simp only [hq, if_false] at h ⊢
      exact ih h

theorem keyFind_keyDel_self {β : Type} (m : List (Nat × β)) (k : Nat) :
    keyFind (keyDel m k) k = none := by
  induction m with
  | nil => rfl
  | cons q t ih =>
    rw [keyDel, List.filter_cons]
    by_cases hq : q.1 = k
    · simp only [hq, bne_self_eq_false, if_false]
      exact ih
    · have hb : (q.1 != k) = true := by simp [bne, hq]
      rw [hb, if_pos rfl, keyFind]
      simp only [hq, if_false]
      exact ih

theorem keyFind_keyDel_ne {β : Type} (m : List (Nat × β)) (k j : Nat)
    (h : j ≠ k) : keyFind (keyDel m k) j = keyFind m j := by
  induction m with
  | nil => rfl
  | cons q t ih =>
    rw [keyDel, List.filter_cons, keyFind]
    by_cases hq : q.1 = k
    · have hb : (q.1 != k) = false := by simp [bne, hq]
      rw [hb]
      simp only [Bool.false_eq_true, if_false]
      have hne : q.1 ≠ j := fun hc => h (hc ▸ hq)
      rw [if_neg hne]
      exact ih
    · have hb : (q.1 != k) = true := by simp [bne, hq]
      rw [hb, if_pos rfl, keyFind]
      by_cases hqj : q.1 = j
      · simp [hqj]
      · simp only [hqj, if_false]
        exact ih

theorem keyDel_of_not_mem {β : Type} (m : List (Nat × β)) (k : Nat)
    (h : keyFind m k = none) : keyDel m k = m := by
  induction m with
  | nil => rfl
  | cons q t ih =>
    rw [keyFind] at h
    by_cases hq : q.1 = k
    · simp [hq] at h
    · simp only [hq, if_false] at h
      rw [keyDel, List.filter_cons]
      have hb : (q.1 != k) = true := by simp [bne, hq]
      rw [hb, if_pos rfl]
      rw [keyDel] at ih
      rw [ih h]

theorem keyDel_subset {β : Type} (m : List (Nat × β)) (k : Nat)
    (q : Nat × β) (h : q ∈ keyDel m k) : q ∈ m :=
  List.mem_of_mem_filter h

theorem keyFind_eq_none_iff {β : Type} (m : List (Nat × β)) (k : Nat) :
    keyFind m k = none ↔ ∀ q ∈ m, q.1 ≠ k := by
  induction m with
  | nil => simp [keyFind]
  | cons q t ih =>
    rw [keyFind]
    by_cases hq : q.1 = k
    · simp [hq]
    · simp only [hq, if_false, List.mem_cons]
      rw [ih]
      constructor
      · intro h r hr
        rcases hr with h1 | h2
        · rw [h1]; exact hq
        · exact h r h2
      · intro h r hr
        exact h r (Or.inr hr)

theorem keyFind_mem {β : Type} (m : List (Nat × β)) (k : Nat) (v : β)
    (h : keyFind m k = some v) : (k, v) ∈ m := by
  induction m with
  | nil => simp [keyFind] at h
  | cons q t ih =>
    rw [keyFind] at h
    by_cases hq : q.1 = k
    · simp only [hq, if_true, Option.some_inj] at h
      have hqkv : q = (k, v) := by
        obtain ⟨a, b⟩ := q
        simp only [Prod.mk.injEq]
        exact ⟨hq, h⟩
      rw [← hqkv]
      exact List.mem_cons_self _ _
    · simp only [hq, if_false] at h
      exact List.mem_cons_of_mem _ (ih h)

theorem mem_keyFind {β : Type} (m : List (Nat × β)) (q : Nat × β)
    (hmem : q ∈ m) (hnd : (m.map Prod.fst).Nodup) :
    keyFind m q.1 = some q.2 := by
  induction m with
  | nil => simp at hmem
  | cons r t ih =>
    rw [List.map_cons, List.nodup_cons] at hnd
    rw [keyFind]
    rcases List.mem_cons.mp hmem with h1 | h2
    · rw [h1]
      simp
    · by_cases hr : r.1 = q.1
      · exfalso
        exact hnd.1 (hr ▸ List.mem_map_of_mem Prod.fst h2)
      · simp only [hr, if_false]
        exact ih h2 hnd.2

theorem keyFind_proj (m : List (Nat × (Nat × Nat))) (k : Nat) :
    keyFind (m.map (fun q => (q.1, q.2.2))) k = (keyFind m k).map Prod.snd := by
  induction m with
  | nil => rfl
  | cons q t ih =>
    rw [List.map_cons, keyFind, keyFind]
    by_cases hq : q.1 = k
    · simp [hq]
    · simp only [hq, if_false]
      exact ih

theorem keyDel_proj (m : List (Nat × (Nat × Nat))) (k : Nat) :
    (keyDel m k).map (fun q => (q.1, q.2.2)) =
      keyDel (m.map (fun q => (q.1, q.2.2))) k := by
  induction m with
  | nil => rfl
  | cons q t ih =>
    rw [keyDel, keyDel, List.map_cons, List.filter_cons, List.filter_cons]
    by_cases hq : q.1 = k
    · have hb : (q.1 != k) = false := by simp [bne, hq]
      simp only [hb, Bool.false_eq_true, if_false]
      exact ih
    · have hb : (q.1 != k) = true := by simp [bne, hq]
      simp only [hb, if_true, List.map_cons]
      rw [keyDel] at ih
      rw [ih]
      rfl

theorem dictSet_fresh {β : Type} (m : List (Nat × β)) (k : Nat) (v : β)
    (h : keyFind m k = none) : dictSet m k v = m ++ [(k, v)] := by
  rw [dictSet, h]
  rfl

/-! ### C4, C7, C8, C9 and the concrete counterexamples -/

set_option maxRecDepth 4000 in
/-- C4: on a fresh genome of size 20 (either variant), the golden-vector
call sequence returns ids 1..5, leaves active_tes() = [2, 5], and renders
exactly the fixture string. -/
theorem golden_vector_runs :
    ((ListGenome.new 20).runIds goldenOps).map
        (fun p => (p.1, p.2.active_tes, p.2.str)) =
      some ([1, 2, 3, 4, 5], [2, 5], goldenStr) ∧
    ((LinkedListGenome.new 20).runIds goldenOps).map
        (fun p => (p.1, p.2.active_tes, p.2.str)) =
      some ([1, 2, 3, 4, 5], [2, 5], some goldenStr) := by
  constructor
  · decide
  · decide

/-- C1 counterexample: after the single call insert_te(0, 1) on genomes of
size 1, the two variants return the same id and the same active list but
render different strings ("A-" dense vs "-A" linked): the dense variant puts
the block at the start of the string, the linked variant splices it before
node 0, i.e. at the end of the traversal. -/
theorem render_diverges_at_position_zero :
    ((ListGenome.new 1).run [Op.ins 0 1]).map ListGenome.str = some "A-" ∧
    ((LinkedListGenome.new 1).run [Op.ins 0 1]).map LinkedListGenome.str =
      some (some "-A") ∧
    ((ListGenome.new 1).run [Op.ins 0 1]).map ListGenome.active_tes =
      ((LinkedListGenome.new 1).run [Op.ins 0 1]).map
        LinkedListGenome.active_tes ∧
    ((ListGenome.new 1).run [Op.ins 0 1]).map (fun g => some g.str) ≠
      ((LinkedListGenome.new 1).run [Op.ins 0 1]).map LinkedListGenome.str := by
  refine ⟨by decide, by decide, by decide, by decide⟩

/-- C2 counterexample: on a fresh dense genome of length 2,
insert_te(2, 1) with pos = current_length raises IndexError (the claim says
it must succeed), insert_te(-1, 1) succeeds (the claim says pos < 0 must
raise), and on the linked variant insert_te(7, 1) and insert_te(-1, 1) both
succeed although 7 and -1 are outside [0, 2]. -/
theorem insert_te_range_counterexample :
    (ListGenome.new 2).insert_te 2 1 = none ∧
    ((ListGenome.new 2).insert_te (-1) 1).isSome = true ∧
    ((LinkedListGenome.new 2).insert_te 7 1).isSome = true ∧
    ((LinkedListGenome.new 2).insert_te (-1) 1).isSome = true := by
  refine ⟨by decide, by decide, by decide, by decide⟩

/-- C3 counterexample: insert_te(0, 0) on a linked genome of size 2
succeeds (length stays 2), but afterwards __str__ raises IndexError (the
traversal reaches the phantom node appended to next/prev but not to nuc), so
there is no render string of length length(); the dense variant is fine on
the same call. -/
theorem render_raises_after_len0_insert :
    ((LinkedListGenome.new 2).insert_te 0 0).map
        (fun p => (p.2.str, p.2.len)) = some (none, 2) ∧
    ((ListGenome.new 2).insert_te 0 0).map
        (fun p => (p.2.str.length, p.2.len)) = some (2, 2) := by
  refine ⟨by decide, by decide⟩

/-- C10 counterexample: insert_te(0, 0) on a genome of size 1 leaves TE 1
currently active (with recorded length 0), yet copy_te(1, 0) raises on both
variants (dense: ValueError from nuc.index; linked: IndexError reading the
out-of-range anchor node) instead of deactivating TE 1 and returning a new
id. -/
theorem copy_te_zero_length_raises :
    ((ListGenome.new 1).insert_te 0 0).map
        (fun p => (p.1, p.2.active_tes)) = some (1, [1]) ∧
    (((ListGenome.new 1).insert_te 0 0).bind
        (fun p => p.2.copy_te p.1 0)) = none ∧
    ((LinkedListGenome.new 1).insert_te 0 0).map
        (fun p => (p.1, p.2.active_tes)) = some (1, [1]) ∧
    (((LinkedListGenome.new 1).insert_te 0 0).bind
        (fun p => p.2.copy_te p.1 0)) = none := by
  refine ⟨by decide, by decide, by decide, by decide⟩

/-- C7: copy_te on an id that is not in the active registry returns the
no-op sentinel (Python None) and the genome completely unchanged, for every
offset, on both variants. -/
theorem copy_te_inactive_sentinel (g : ListGenome) (l : LinkedListGenome)
    (te : Nat) (offset : Int)
    (hg : keyFind g.active te = none) (hl : keyFind l.active te = none) :
    g.copy_te te offset = some (none, g) ∧
    l.copy_te te offset = some (none, l) := by
  constructor
  · rw [ListGenome.copy_te, hg]
  · rw [LinkedListGenome.copy_te, hl]

theorem copy_te_inactive_sentinel_witness :
    keyFind (ListGenome.new 2).active 5 = none ∧
    keyFind (LinkedListGenome.new 2).active 5 = none ∧
    (ListGenome.new 2).copy_te 5 (-3) = some (none, ListGenome.new 2) ∧
    (LinkedListGenome.new 2).copy_te 5 (-3) =
      some (none, LinkedListGenome.new 2) := by
  have h := copy_te_inactive_sentinel (ListGenome.new 2)
    (LinkedListGenome.new 2) 5 (-3) rfl rfl
  exact ⟨rfl, rfl, h.1, h.2⟩

/-- C8: disable_te is idempotent on both variants, and calling it on an id
absent from the active registry returns the genome state unchanged (it is a
total function, so no error is raised). -/
theorem disable_te_idempotent :
    (∀ (g : ListGenome) (te : Nat),
      (g.disable_te te).disable_te te = g.disable_te te) ∧
    (∀ (l : LinkedListGenome) (te : Nat),
      (l.disable_te te).disable_te te = l.disable_te te) ∧
    (∀ (g : ListGenome) (te : Nat),
      keyFind g.active te = none → g.disable_te te = g) ∧
    (∀ (l : LinkedListGenome) (te : Nat),
      keyFind l.active te = none → l.disable_te te = l) := by
  refine ⟨?_, ?_, ?_, ?_⟩
  · intro g te
    by_cases h : (keyFind g.active te).isSome
    · have h1 : g.disable_te te = { g with active := keyDel g.active te } := by
        rw [ListGenome.disable_te, if_pos h]
      rw [h1, ListGenome.disable_te]
      simp [keyFind_keyDel_self]
    · have h1 : g.disable_te te = g := by
        rw [ListGenome.disable_te, if_neg h]
      rw [h1]
      exact h1
  · intro l te
    by_cases h : (keyFind l.active te).isSome
    · have h1 : l.disable_te te = { l with active := keyDel l.active te } := by
        rw [LinkedListGenome.disable_te, if_pos h]
      rw [h1, LinkedListGenome.disable_te]
      simp [keyFind_keyDel_self]
    · have h1 : l.disable_te te = l := by
        rw [LinkedListGenome.disable_te, if_neg h]
      rw [h1]
      exact h1
  · intro g te h
    rw [ListGenome.disable_te, h]
    rfl
  · intro l te h
    rw [LinkedListGenome.disable_te, h]
    rfl

theorem disable_te_idempotent_witness :
    ((ListGenome.new 3).disable_te 7).disable_te 7 =
      (ListGenome.new 3).disable_te 7 ∧
    ((LinkedListGenome.new 3).disable_te 7).disable_te 7 =
      (LinkedListGenome.new 3).disable_te 7 ∧
    keyFind (ListGenome.new 3).active 7 = none ∧
    (ListGenome.new 3).disable_te 7 = ListGenome.new 3 ∧
    keyFind (LinkedListGenome.new 3).active 7 = none ∧
    (LinkedListGenome.new 3).disable_te 7 = LinkedListGenome.new 3 :=
  ⟨disable_te_idempotent.1 (ListGenome.new 3) 7,
   disable_te_idempotent.2.1 (LinkedListGenome.new 3) 7,
   rfl,
   disable_te_idempotent.2.2.1 (ListGenome.new 3) 7 rfl,
   rfl,
   disable_te_idempotent.2.2.2 (LinkedListGenome.new 3) 7 rfl⟩

/-! ### C9: minted ids -/

theorem ListGenome.insert_te_shape_dense (g : ListGenome) (pos : Int) (len te2 : Nat)
    (g2 : ListGenome) (h : g.insert_te pos len = some (te2, g2)) :
    te2 = g.next_te_id ∧ g2.next_te_id = g.next_te_id + 1 := by
  rw [ListGenome.insert_te] at h
  split at h
  · exact Option.noConfusion h
  · simp only [Option.some_inj, Prod.mk.injEq] at h
    exact ⟨h.1.symm, by rw [← h.2]⟩

theorem LinkedListGenome.insert_at_shape (l : LinkedListGenome)
    (i len te2 : Nat) (l2 : LinkedListGenome)
    (h : l.insert_te_at_index i len = some (te2, l2)) :
    te2 = l.next_te_id ∧ l2.next_te_id = l.next_te_id + 1 := by
  rw [LinkedListGenome.insert_te_at_index] at h
  split at h
  · exact Option.noConfusion h
  split at h
  · exact Option.noConfusion h
  split at h
  · exact Option.noConfusion h
  split at h
  · exact Option.noConfusion h
  simp only [Option.some_inj, Prod.mk.injEq] at h
  exact ⟨h.1.symm, by rw [← h.2]⟩

theorem ListGenome.step_id_dense (g : ListGenome) (op : Op) (r : Option Nat)
    (g2 : ListGenome) (h : g.step op = some (r, g2)) :
    (r = none ∧ g2.next_te_id = g.next_te_id) ∨
    (r = some g.next_te_id ∧ g2.next_te_id = g.next_te_id + 1) := by
  cases op with
  | ins pos len =>
    rw [ListGenome.step] at h
    split at h
    · exact Option.noConfusion h
    · rename_i id g3 heq
      simp only [Option.some_inj, Prod.mk.injEq] at h
      have hs := ListGenome.insert_te_shape_dense g pos len id g3 heq
      right
      constructor
      · rw [← h.1, hs.1]
      · rw [← h.2]; exact hs.2
  | cpy te offset =>
    rw [ListGenome.step, ListGenome.copy_te] at h
    split at h
    · simp only [Option.some_inj, Prod.mk.injEq] at h
      exact Or.inl ⟨h.1.symm, by rw [← h.2]⟩
    · rename_i len heq
      split at h
      · exact Option.noConfusion h
      · rename_i q heq2
        split at h
        · exact Option.noConfusion h
        · rename_i id g3 heq3
          simp only [Option.some_inj, Prod.mk.injEq] at h
          have hs := ListGenome.insert_te_shape_dense g _ len id g3 heq3
          right
          constructor
          · rw [← h.1, hs.1]
          · rw [← h.2]; exact hs.2
  | dis te =>
    rw [ListGenome.step] at h
    simp only [Option.some_inj, Prod.mk.injEq] at h
    left
    refine ⟨h.1.symm, ?_⟩
    rw [← h.2, ListGenome.disable_te]
    by_cases hd : (keyFind g.active te).isSome
    · rw [if_pos hd]
    · rw [if_neg hd]

theorem LinkedListGenome.insert_te_shape_linked (l : LinkedListGenome) (pos : Int)
    (len te2 : Nat) (l2 : LinkedListGenome)
    (h : l.insert_te pos len = some (te2, l2)) :
    te2 = l.next_te_id ∧ l2.next_te_id = l.next_te_id + 1 := by
  rw [LinkedListGenome.insert_te] at h
  split at h
  · exact Option.noConfusion h
  · rename_i i heq
    exact LinkedListGenome.insert_at_shape l i len te2 l2 h

theorem LinkedListGenome.step_id_linked (l : LinkedListGenome) (op : Op)
    (r : Option Nat) (l2 : LinkedListGenome) (h : l.step op = some (r, l2)) :
    (r = none ∧ l2.next_te_id = l.next_te_id) ∨
    (r = some l.next_te_id ∧ l2.next_te_id = l.next_te_id + 1) := by
  cases op with
  | ins pos len =>
    rw [LinkedListGenome.step] at h
    split at h
    · exact Option.noConfusion h
    · rename_i id l3 heq
      simp only [Option.some_inj, Prod.mk.injEq] at h
      have hs := LinkedListGenome.insert_te_shape_linked l pos len id l3 heq
      right
      constructor
      · rw [← h.1, hs.1]
      · rw [← h.2]; exact hs.2
  | cpy te offset =>
    rw [LinkedListGenome.step, LinkedListGenome.copy_te] at h
    split at h
    · simp only [Option.some_inj, Prod.mk.injEq] at h
      exact Or.inl ⟨h.1.symm, by rw [← h.2]⟩
    · rename_i pos len heq
      split at h
      · exact Option.noConfusion h
      · rename_i i heq2
        split at h
        · exact Option.noConfusion h
        · rename_i id l3 heq3
          simp only [Option.some_inj, Prod.mk.injEq] at h
          have hs := LinkedListGenome.insert_at_shape l i len id l3 heq3
          right
          constructor
          · rw [← h.1, hs.1]
          · rw [← h.2]; exact hs.2
  | dis te =>
    rw [LinkedListGenome.step] at h
    simp only [Option.some_inj, Prod.mk.injEq] at h
    left
    refine ⟨h.1.symm, ?_⟩
    rw [← h.2, LinkedListGenome.disable_te]
    by_cases hd : (keyFind l.active te).isSome
    · rw [if_pos hd]
    · rw [if_neg hd]

theorem ListGenome.runIds_range_dense (ops : List Op) (g : ListGenome)
    (ids : List Nat) (g2 : ListGenome)
    (h : g.runIds ops = some (ids, g2)) :
    ids = List.range' g.next_te_id ids.length := by
  induction ops generalizing g ids g2 with
  | nil =>
    rw [ListGenome.runIds] at h
    simp only [Option.some_inj, Prod.mk.injEq] at h
    rw [← h.1]
    rfl
  | cons op ops ih =>
    rw [ListGenome.runIds] at h
    split at h
    · exact Option.noConfusion h
    rename_i r gm heq
    split at h
    · exact Option.noConfusion h
    rename_i ids2 g3 heq2
    simp only [Option.some_inj, Prod.mk.injEq] at h
    have htl := ih gm ids2 g3 heq2
    rcases ListGenome.step_id_dense g op r gm heq with ⟨hn, hid⟩ | ⟨hm, hid⟩
    · rw [← h.1, hn]
      simp only [Option.toList_none, List.nil_append]
      rw [← hid]
      exact htl
    · rw [← h.1, hm]
      simp only [Option.toList_some, List.singleton_append, List.length_cons]
      rw [List.range'_succ, ← hid, ← htl]

theorem LinkedListGenome.runIds_range_linked (ops : List Op) (l : LinkedListGenome)
    (ids : List Nat) (l2 : LinkedListGenome)
    (h : l.runIds ops = some (ids, l2)) :
    ids = List.range' l.next_te_id ids.length := by
  induction ops generalizing l ids l2 with
  | nil =>
    rw [LinkedListGenome.runIds] at h
    simp only [Option.some_inj, Prod.mk.injEq] at h
    rw [← h.1]
    rfl
  | cons op ops ih =>
    rw [LinkedListGenome.runIds] at h
    split at h
    · exact Option.noConfusion h
    rename_i r lm heq
    split at h
    · exact Option.noConfusion h
    rename_i ids2 l3 heq2
    simp only [Option.some_inj, Prod.mk.injEq] at h
    have htl := ih lm ids2 l3 heq2
    rcases LinkedListGenome.step_id_linked l op r lm heq with ⟨hn, hid⟩ | ⟨hm, hid⟩
    · rw [← h.1, hn]
      simp only [Option.toList_none, List.nil_append]
      rw [← hid]
      exact htl
    · rw [← h.1, hm]
      simp only [Option.toList_some, List.singleton_append, List.length_cons]
      rw [List.range'_succ, ← hid, ← htl]

/-- C9: on one genome (either variant) the ids returned by the successful
insert_te/copy_te calls of any call sequence are exactly 1, 2, 3, ...:
the list of minted ids is an arithmetic run starting at 1 with step 1, so
ids are strictly increasing and never reused. -/
theorem minted_ids_consecutive :
    (∀ (n : Nat) (ops : List Op) (ids : List Nat) (g : ListGenome),
      (ListGenome.new n).runIds ops = some (ids, g) →
        ids = List.range' 1 ids.length) ∧
    (∀ (n : Nat) (ops : List Op) (ids : List Nat) (l : LinkedListGenome),
      (LinkedListGenome.new n).runIds ops = some (ids, l) →
        ids = List.range' 1 ids.length) := by
  constructor
  · intro n ops ids g h
    exact ListGenome.runIds_range_dense ops (ListGenome.new n) ids g h
  · intro n ops ids l h
    exact LinkedListGenome.runIds_range_linked ops (LinkedListGenome.new n) ids l h

theorem minted_ids_consecutive_witness :
    (ListGenome.new 1).runIds [Op.ins 0 1] =
      some ([1], ⟨2, [1, 0], [(1, 1)]⟩) ∧
    (LinkedListGenome.new 1).runIds [Op.ins 0 1] =
      some ([1], ⟨2, [0, 1], [1, 0], [1, 0], [(1, (1, 1))]⟩) ∧
    ([1] : List Nat) = List.range' 1 ([1] : List Nat).length ∧
    ([1] : List Nat) = List.range' 1 ([1] : List Nat).length := by
  refine ⟨by decide, by decide, ?_, ?_⟩
  · exact minted_ids_consecutive.1 1 [Op.ins 0 1] [1] ⟨2, [1, 0], [(1, 1)]⟩
      (by decide)
  · exact minted_ids_consecutive.2 1 [Op.ins 0 1] [1]
      ⟨2, [0, 1], [1, 0], [1, 0], [(1, (1, 1))]⟩ (by decide)

/-! ### Collision-rule lemmas and C5 -/

theorem keyFind_collide_self {β : Type} (m : List (Nat × β)) (k : Nat) :
    keyFind (collide m k) k = none := by
  rw [collide]
  by_cases h : (keyFind m k).isSome
  · rw [if_pos h]
    exact keyFind_keyDel_self m k
  · rw [if_neg h]
    cases hf : keyFind m k with
    | none => rfl
    | some v => rw [hf] at h; simp at h

theorem collide_subset {β : Type} (m : List (Nat × β)) (k : Nat)
    (q : Nat × β) (h : q ∈ collide m k) : q ∈ m := by
  rw [collide] at h
  by_cases hs : (keyFind m k).isSome
  · rw [if_pos hs] at h
    exact keyDel_subset m k q h
  · rwa [if_neg hs] at h

theorem keyFind_collide_ne {β : Type} (m : List (Nat × β)) (k j : Nat)
    (h : j ≠ k) : keyFind (collide m k) j = keyFind m j := by
  rw [collide]
  by_cases hs : (keyFind m k).isSome
  · rw [if_pos hs]
    exact keyFind_keyDel_ne m k j h
  · rw [if_neg hs]

theorem getD_of_get? {α : Type} (xs : List α) (i : Nat) (v d : α)
    (h : xs.get? i = some v) : xs.getD i d = v := by
  rw [List.getD_eq_getElem?_getD, ← List.get?_eq_getElem?, h]
  rfl

theorem getD_map_lt {α β : Type} (xs : List α) (f : α → β) (i : Nat)
    (d : α) (e : β) (h : i < xs.length) :
    (xs.map f).getD i e = f (xs.getD i d) := by
  have h1 : xs.get? i = some (xs.getD i d) := by
    rw [List.getD_eq_getElem?_getD, ← List.get?_eq_getElem?]
    cases hg : xs.get? i with
    | none => exact absurd (List.get?_eq_none.mp hg) (by omega)
    | some v => rfl
  have h2 : (xs.map f).get? i = some (f (xs.getD i d)) := by
    rw [List.get?_map, h1]
    rfl
  exact getD_of_get? _ _ _ _ h2

/-- The registry after a successful dense insertion. -/
theorem ListGenome.insert_te_active (g : ListGenome) (pos : Int)
    (len te2 p : Nat) (g2 : ListGenome)
    (hp : pyGetIdx g.nuc.length pos = some p)
    (h : g.insert_te pos len = some (te2, g2)) :
    g2.active = dictSet (collide g.active (g.nuc.getD p 0)) g.next_te_id len ∧
    g2.nuc = g.nuc.take p ++ List.replicate len g.next_te_id ++ g.nuc.drop p := by
  rw [ListGenome.insert_te, hp] at h
  simp only [Option.some_inj, Prod.mk.injEq] at h
  rw [← h.2]
  exact ⟨rfl, rfl⟩

/-- The registry after a successful linked insertion at node `i`. -/
theorem LinkedListGenome.insert_at_active (l : LinkedListGenome)
    (i len te2 : Nat) (l2 : LinkedListGenome)
    (h : l.insert_te_at_index i len = some (te2, l2)) :
    l2.active = dictSet (collide l.active (l.nuc.getD i 0)) l.next_te_id
      (l.nuc.length, len) ∧
    l2.nuc = l.nuc ++ List.replicate len l.next_te_id := by
  rw [LinkedListGenome.insert_te_at_index] at h
  split at h
  · exact Option.noConfusion h
  rename_i hit heq1
  split at h
  · exact Option.noConfusion h
  rename_i j heq2
  split at h
  · exact Option.noConfusion h
  rename_i next3 heq3
  split at h
  · exact Option.noConfusion h
  rename_i prev3 heq4
  simp only [Option.some_inj, Prod.mk.injEq] at h
  rw [← h.2]
  constructor
  · have hhit : l.nuc.getD i 0 = hit := getD_of_get? _ _ _ _ heq1
    rw [hhit]
  · rfl

/-- Core of C5 at the registry level: after an insertion hitting tag `t0`,
`t0` is gone from the registry (if it was there), the new id is registered,
and every other entry survives unchanged, provided every registered id is a
nonzero already-minted id and keys are unique. -/
theorem registry_after_collision {β : Type} (act : List (Nat × β))
    (t0 nid : Nat) (v : β)
    (hb : ∀ q ∈ act, 1 ≤ q.1 ∧ q.1 < nid)
    (hnd : (act.map Prod.fst).Nodup) :
    ((keyFind act t0).isSome →
      keyFind (dictSet (collide act t0) nid v) t0 = none) ∧
    keyFind (dictSet (collide act t0) nid v) nid = some v ∧
    (∀ q ∈ act, q.1 ≠ t0 →
      keyFind (dictSet (collide act t0) nid v) q.1 = some q.2) := by
  have hfresh : keyFind (collide act t0) nid = none := by
    rw [keyFind_eq_none_iff]
    intro q hq
    have := (hb q (collide_subset act t0 q hq)).2
    omega
  rw [dictSet_fresh _ _ _ hfresh]
  refine ⟨?_, ?_, ?_⟩
  · intro hs
    obtain ⟨w, hf⟩ := Option.isSome_iff_exists.mp hs
    have hmem := keyFind_mem act t0 w hf
    have ht0 := hb _ hmem
    have hne : nid ≠ t0 := by omega
    rw [keyFind_append_none _ _ _ (keyFind_collide_self act t0), keyFind,
      if_neg hne]
    rfl
  · rw [keyFind_append_none _ _ _ hfresh, keyFind]
    simp
  · intro q hq hne
    have h1 : keyFind (collide act t0) q.1 = some q.2 := by
      rw [keyFind_collide_ne act t0 q.1 hne]
      exact mem_keyFind act q hq hnd
    exact keyFind_append_some _ _ _ _ h1

/-- C5: for every successful insert_te call on either variant, writing `t0`
for the tag of the slot at the insertion point: if `t0` is currently active
it is removed from the registry entirely and every slot tagged `t0` renders
as 'x' afterwards; and no TE other than `t0` is deactivated — every other
registry entry survives with its value unchanged (hypotheses: registered ids
are nonzero already-minted ids with distinct keys, as in every reachable
state). -/
theorem insertion_collision_exact :
    (∀ (g : ListGenome) (pos : Int) (len p te2 : Nat) (g2 : ListGenome),
      (∀ q ∈ g.active, 1 ≤ q.1 ∧ q.1 < g.next_te_id) →
      (g.active.map Prod.fst).Nodup →
      pyGetIdx g.nuc.length pos = some p →
      g.insert_te pos len = some (te2, g2) →
      ((keyFind g.active (g.nuc.getD p 0)).isSome →
        keyFind g2.active (g.nuc.getD p 0) = none ∧
        tagChar g2.active (g.nuc.getD p 0) = 'x' ∧
        (∀ i, i < g2.nuc.length → g2.nuc.getD i 0 = g.nuc.getD p 0 →
          g2.str.data.getD i 'A' = 'x')) ∧
      (∀ q ∈ g.active, q.1 ≠ g.nuc.getD p 0 →
        keyFind g2.active q.1 = some q.2)) ∧
    (∀ (l : LinkedListGenome) (pos : Int) (len i te2 : Nat)
        (l2 : LinkedListGenome),
      (∀ q ∈ l.active, 1 ≤ q.1 ∧ q.1 < l.next_te_id) →
      (l.active.map Prod.fst).Nodup →
      l.get_index pos = some i →
      l.insert_te pos len = some (te2, l2) →
      ((keyFind l.active (l.nuc.getD i 0)).isSome →
        keyFind l2.active (l.nuc.getD i 0) = none ∧
        tagChar l2.active (l.nuc.getD i 0) = 'x' ∧
        (∀ ts s idx, l2.tags = some ts → l2.str = some s → idx < ts.length →
          ts.getD idx 0 = l.nuc.getD i 0 → s.data.getD idx 'A' = 'x')) ∧
      (∀ q ∈ l.active, q.1 ≠ l.nuc.getD i 0 →
        keyFind l2.active q.1 = some q.2)) := by
  constructor
  · intro g pos len p te2 g2 hb hnd hp h
    obtain ⟨hact, hnuc⟩ := ListGenome.insert_te_active g pos len te2 p g2 hp h
    have hreg := registry_after_collision g.active (g.nuc.getD p 0)
      g.next_te_id len hb hnd
    constructor
    · intro hs
      have hkill := hreg.1 hs
      obtain ⟨w, hf⟩ := Option.isSome_iff_exists.mp hs
      have ht0pos := (hb _ (keyFind_mem _ _ _ hf)).1
      have hx : tagChar g2.active (g.nuc.getD p 0) = 'x' := by
        rw [tagChar, if_neg (by omega), hact, hkill]
        rfl
      refine ⟨by rw [hact]; exact hkill, hx, ?_⟩
      intro i hi hslot
      have hdata : g2.str.data = g2.nuc.map (tagChar g2.active) := rfl
      rw [hdata, getD_map_lt g2.nuc (tagChar g2.active) i 0 'A' hi, hslot]
      exact hx
    · intro q hq hne
      rw [hact]
      exact hreg.2.2 q hq hne
  · intro l pos len i te2 l2 hb hnd hgi h
    rw [LinkedListGenome.insert_te] at h
    split at h
    · exact Option.noConfusion h
    rename_i i2 heq
    rw [hgi] at heq
    have hii : i2 = i := by
      exact (Option.some_inj.mp heq).symm
    rw [hii] at h
    obtain ⟨hact, hnuc⟩ := LinkedListGenome.insert_at_active l i len te2 l2 h
    have hreg := registry_after_collision l.active (l.nuc.getD i 0)
      l.next_te_id (l.nuc.length, len) hb hnd
    constructor
    · intro hs
      have hkill := hreg.1 hs
      obtain ⟨w, hf⟩ := Option.isSome_iff_exists.mp hs
      have ht0pos := (hb _ (keyFind_mem _ _ _ hf)).1
      have hx : tagChar l2.active (l.nuc.getD i 0) = 'x' := by
        rw [tagChar, if_neg (by omega), hact, hkill]
        rfl
      refine ⟨by rw [hact]; exact hkill, hx, ?_⟩
      intro ts s idx hts hstr hidx hslot
      rw [LinkedListGenome.str, hts] at hstr
      have hsd : s.data = ts.map (tagChar l2.active) := by
        have := Option.some_inj.mp hstr
        rw [← this]
      rw [hsd, getD_map_lt ts (tagChar l2.active) idx 0 'A' hidx, hslot]
      exact hx
    · intro q hq hne
      rw [hact]
      exact hreg.2.2 q hq hne

theorem insertion_collision_exact_witness :
    (⟨2, [0, 1, 1, 0, 0], [(1, 2)]⟩ : ListGenome).insert_te 1 1 =
      some (2, ⟨3, [0, 2, 1, 1, 0, 0], [(2, 1)]⟩) ∧
    keyFind ([(2, 1)] : List (Nat × Nat)) 1 = none ∧
    tagChar ([(2, 1)] : List (Nat × Nat)) 1 = 'x' ∧
    (⟨2, [0, 0, 0, 1, 1], [3, 2, 0, 4, 1], [2, 4, 1, 0, 3],
        [(1, 3, 2)]⟩ : LinkedListGenome).insert_te 1 1 =
      some (2, ⟨3, [0, 0, 0, 1, 1, 2], [5, 2, 0, 4, 1, 3],
        [2, 4, 1, 5, 3, 0], [(2, 5, 1)]⟩) ∧
    keyFind ([(2, (5, 1))] : List (Nat × Nat × Nat)) 1 = none ∧
    tagChar ([(2, (5, 1))] : List (Nat × Nat × Nat)) 1 = 'x' := by
  have hd := insertion_collision_exact.1 ⟨2, [0, 1, 1, 0, 0], [(1, 2)]⟩
    1 1 1 2 ⟨3, [0, 2, 1, 1, 0, 0], [(2, 1)]⟩
    (by decide) (by decide) (by decide) (by decide)
  have hl := insertion_collision_exact.2
    ⟨2, [0, 0, 0, 1, 1], [3, 2, 0, 4, 1], [2, 4, 1, 0, 3], [(1, 3, 2)]⟩
    1 1 3 2
    ⟨3, [0, 0, 0, 1, 1, 2], [5, 2, 0, 4, 1, 3], [2, 4, 1, 5, 3, 0],
      [(2, 5, 1)]⟩
    (by decide) (by decide) (by decide) (by decide)
  have hd1 := hd.1 (by decide)
  have hl1 := hl.1 (by decide)
  exact ⟨by decide, hd1.1, hd1.2.1, by decide, hl1.1, hl1.2.1⟩

/-! ### C10: copy_te with offset 0 -/

theorem get?_eq_some_getD {α : Type} [Inhabited α] (xs : List α) (i : Nat)
    (h : i < xs.length) : xs.get? i = some (xs.getD i default) := by
  rw [List.getD_eq_getElem?_getD, ← List.get?_eq_getElem?]
  cases hg : xs.get? i with
  | none => exact absurd (List.get?_eq_none.mp hg) (by omega)
  | some v => rfl

theorem findIdx?_facts (xs : List Nat) (t : Nat) : ∀ s p,
    List.findIdx? (fun x => decide (x = t)) xs s = some p →
    s ≤ p ∧ p - s < xs.length ∧ xs.getD (p - s) 0 = t := by
  induction xs with
  | nil => intro s p h; exact Option.noConfusion h
  | cons x xs ih =>
    intro s p h
    rw [List.findIdx?_cons] at h
    by_cases hx : x = t
    · rw [if_pos (by simp [hx])] at h
      have hp : p = s := (Option.some_inj.mp h).symm
      refine ⟨by omega, by simp [hp], ?_⟩
      rw [hp, Nat.sub_self]
      exact hx
    · rw [if_neg (by simp [hx])] at h
      obtain ⟨h1, h2, h3⟩ := ih (s + 1) p h
      refine ⟨by omega, by simp; omega, ?_⟩
      have hps : p - s = (p - (s + 1)) + 1 := by omega
      rw [hps, List.getD_cons_succ]
      exact h3

/-- C10 (amended): for every genome (either variant) and every
currently-active TE te that actually occupies at least one slot (its tag
occurs in the dense storage / its anchor node is a valid node tagged with
it, which holds for every TE inserted with length ≥ 1 — for an active TE of
recorded length 0, copy_te raises instead, see the counterexample),
copy_te(te, 0) inserts at te's own first slot, so by the collision rule te
itself is deactivated, the minted id is registered, and the call returns the
new id. -/
theorem copy_te_offset_zero_self_collision :
    (∀ (g : ListGenome) (te k p : Nat),
      (∀ q ∈ g.active, 1 ≤ q.1 ∧ q.1 < g.next_te_id) →
      (g.active.map Prod.fst).Nodup →
      keyFind g.active te = some k →
      g.nuc.findIdx? (· = te) = some p →
      (g.copy_te te 0).map
          (fun pr => (pr.1, keyFind pr.2.active te,
            keyFind pr.2.active g.next_te_id)) =
        some (some g.next_te_id, none, some k)) ∧
    (∀ (l : LinkedListGenome) (te a k : Nat),
      (∀ q ∈ l.active, 1 ≤ q.1 ∧ q.1 < l.next_te_id) →
      (l.active.map Prod.fst).Nodup →
      keyFind l.active te = some (a, k) →
      l.nuc.get? a = some te →
      a < l.prev.length →
      l.prev.getD a 0 < l.next.length →
      (l.copy_te te 0).map
          (fun pr => (pr.1, keyFind pr.2.active te,
            keyFind pr.2.active l.next_te_id)) =
        some (some l.next_te_id, none, some (l.nuc.length, k))) := by
  constructor
  · intro g te k p hb hnd hf hq
    obtain ⟨hsp, hplt, hpt⟩ := by
      have h0 := findIdx?_facts g.nuc te 0 p hq
      rwa [Nat.sub_zero] at h0
    have htgt : ((p : Int) + 0) % (g.nuc.length : Int) = (p : Int) := by
      rw [Int.add_zero]
      exact Int.emod_eq_of_lt (by omega) (by exact_mod_cast hplt)
    have hpy : pyGetIdx g.nuc.length (((p : Int) + 0) %
        (g.nuc.length : Int)) = some p := by
      rw [htgt, pyGetIdx, if_pos (by omega),
        if_pos (by exact_mod_cast hplt)]
      simp
    have hins : g.insert_te (((p : Int) + 0) % (g.nuc.length : Int)) k =
        some (g.next_te_id,
          { next_te_id := g.next_te_id + 1,
            nuc := g.nuc.take p ++ List.replicate k g.next_te_id ++
              g.nuc.drop p,
            active := dictSet (collide g.active (g.nuc.getD p 0))
              g.next_te_id k }) := by
      rw [ListGenome.insert_te, hpy]
    simp only [ListGenome.copy_te, hf, hq, hins]
    have hreg := registry_after_collision g.active (g.nuc.getD p 0)
      g.next_te_id k hb hnd
    have hsome : (keyFind g.active (g.nuc.getD p 0)).isSome := by
      rw [hpt, hf]
      rfl
    simp only [Option.map_some', Option.some_inj, Prod.mk.injEq]
    refine ⟨trivial, ?_, ?_⟩
    · rw [← hpt]
      exact hreg.1 hsome
    · exact hreg.2.1
  · intro l te a k hb hnd hf hga ha hj
    have hmv : l.move_offset a 0 = some a := by
      rw [LinkedListGenome.move_offset, if_pos (by omega)]
      rfl
    have hgp : l.prev.get? a = some (l.prev.getD a 0) :=
      get?_eq_some_getD l.prev a ha
    have hsc1 : setChecked (l.next ++
        ((List.range (k - 1)).map (fun m => l.nuc.length + m + 1) ++ [a]))
        (l.prev.getD a 0) l.nuc.length =
        some ((l.next ++
          ((List.range (k - 1)).map (fun m => l.nuc.length + m + 1) ++
            [a])).set (l.prev.getD a 0) l.nuc.length) := by
      rw [setChecked, if_pos]
      rw [List.length_append]
      omega
    have hsc2 : setChecked (l.prev ++
        ((l.prev.getD a 0) ::
          (List.range (k - 1)).map (fun m => l.nuc.length + m)))
        a (l.nuc.length + k - 1) =
        some ((l.prev ++
          ((l.prev.getD a 0) ::
            (List.range (k - 1)).map (fun m => l.nuc.length + m))).set a
          (l.nuc.length + k - 1)) := by
      rw [setChecked, if_pos]
      rw [List.length_append]
      omega
    have hins : l.insert_te_at_index a k = some (l.next_te_id,
        { next_te_id := l.next_te_id + 1,
          nuc := l.nuc ++ List.replicate k l.next_te_id,
          next := (l.next ++
            ((List.range (k - 1)).map (fun m => l.nuc.length + m + 1) ++
              [a])).set (l.prev.getD a 0) l.nuc.length,
          prev := (l.prev ++
            ((l.prev.getD a 0) ::
              (List.range (k - 1)).map (fun m => l.nuc.length + m))).set a
            (l.nuc.length + k - 1),
          active := dictSet (collide l.active te) l.next_te_id
            (l.nuc.length, k) }) := by
      simp only [LinkedListGenome.insert_te_at_index, hga, hgp, hsc1, hsc2]
    simp only [LinkedListGenome.copy_te, hf, hmv, hins]
    have hreg := registry_after_collision l.active te
      l.next_te_id (l.nuc.length, k) hb hnd
    have hsome : (keyFind l.active te).isSome := by
      rw [hf]
      rfl
    simp only [Option.map_some', Option.some_inj, Prod.mk.injEq]
    exact ⟨trivial, hreg.1 hsome, hreg.2.1⟩

theorem copy_te_offset_zero_witness :
    ((⟨2, [0, 1, 1, 0, 0], [(1, 2)]⟩ : ListGenome).copy_te 1 0).map
        (fun pr => (pr.1, keyFind pr.2.active 1, keyFind pr.2.active 2)) =
      some (some 2, none, some 2) ∧
    ((⟨2, [0, 0, 0, 1, 1], [3, 2, 0, 4, 1], [2, 4, 1, 0, 3],
        [(1, 3, 2)]⟩ : LinkedListGenome).copy_te 1 0).map
        (fun pr => (pr.1, keyFind pr.2.active 1, keyFind pr.2.active 2)) =
      some (some 2, none, some (5, 2)) := by
  constructor
  · exact copy_te_offset_zero_self_collision.1 ⟨2, [0, 1, 1, 0, 0], [(1, 2)]⟩
      1 2 1 (by decide) (by decide) (by decide) (by decide)
  · exact copy_te_offset_zero_self_collision.2
      ⟨2, [0, 0, 0, 1, 1], [3, 2, 0, 4, 1], [2, 4, 1, 0, 3], [(1, 3, 2)]⟩
      1 3 2 (by decide) (by decide) (by decide) (by decide) (by decide)
      (by decide)

/-! ### Cycle structure lemmas -/

theorem Cyc.len_pos {l : LinkedListGenome} {vs : List Nat} (h : Cyc l vs) :
    0 < vs.length := h.1

theorem Cyc.nodes_lt {l : LinkedListGenome} {vs : List Nat} (h : Cyc l vs) :
    ∀ x ∈ vs, x < vs.length := by
  intro x hx
  have hperm := h.2.2.2.2.1
  have : x ∈ List.range vs.length := hperm.mem_iff.mp hx
  exact List.mem_range.mp this

theorem Cyc.nodup {l : LinkedListGenome} {vs : List Nat} (h : Cyc l vs) :
    vs.Nodup := by
  have hperm := h.2.2.2.2.1
  exact hperm.nodup_iff.mpr (List.nodup_range vs.length)

theorem nthv_mem (vs : List Nat) (k : Nat) (h : k < vs.length) :
    nthv vs k ∈ vs := by
  rw [nthv, List.getD_eq_getElem vs 0 h]
  exact List.getElem_mem h

theorem Cyc.nthv_lt {l : LinkedListGenome} {vs : List Nat} (h : Cyc l vs)
    (k : Nat) (hk : k < vs.length) : nthv vs k < vs.length :=
  h.nodes_lt _ (nthv_mem vs k hk)

theorem nthv_inj (vs : List Nat) (hnd : vs.Nodup) (k1 k2 : Nat)
    (h1 : k1 < vs.length) (h2 : k2 < vs.length)
    (h : nthv vs k1 = nthv vs k2) : k1 = k2 := by
  rw [nthv, nthv, List.getD_eq_getElem vs 0 h1, List.getD_eq_getElem vs 0 h2]
    at h
  exact (List.Nodup.getElem_inj_iff hnd).mp h

theorem cycNode_mod (vs : List Nat) (a : Nat) :
    cycNode vs a = nthv vs (a % vs.length) := rfl

theorem cycNode_lt {l : LinkedListGenome} {vs : List Nat} (h : Cyc l vs)
    (a : Nat) : cycNode vs a < vs.length :=
  h.nthv_lt _ (Nat.mod_lt a h.len_pos)

theorem Cyc.next_cycNode {l : LinkedListGenome} {vs : List Nat}
    (h : Cyc l vs) (a : Nat) :
    l.next.getD (cycNode vs a) 0 = cycNode vs (a + 1) := by
  have hfield := h.2.2.2.2.2.1 (a % vs.length) (Nat.mod_lt a h.len_pos)
  rw [cycNode_mod, hfield, cycNode_mod, Nat.mod_add_mod]

theorem Cyc.prev_cycNode {l : LinkedListGenome} {vs : List Nat}
    (h : Cyc l vs) (a : Nat) :
    l.prev.getD (cycNode vs a) 0 = cycNode vs (a + (vs.length - 1)) := by
  have hfield := h.2.2.2.2.2.2 (a % vs.length) (Nat.mod_lt a h.len_pos)
  rw [cycNode_mod, hfield, cycNode_mod]
  have hn := h.len_pos
  have : a % vs.length + vs.length - 1 = a % vs.length + (vs.length - 1) := by
    omega
  rw [this, Nat.mod_add_mod]

theorem get?_eq_some_getD0 (xs : List Nat) (i : Nat)
    (h : i < xs.length) : xs.get? i = some (xs.getD i 0) := by
  rw [List.getD_eq_getElem?_getD, ← List.get?_eq_getElem?]
  cases hg : xs.get? i with
  | none => exact absurd (List.get?_eq_none.mp hg) (by omega)
  | some v => rfl

theorem Cyc.next_get?_cycNode {l : LinkedListGenome} {vs : List Nat}
    (h : Cyc l vs) (a : Nat) :
    l.next.get? (cycNode vs a) = some (cycNode vs (a + 1)) := by
  have hlt : cycNode vs a < l.next.length := by
    rw [h.2.2.1]
    exact cycNode_lt h a
  rw [get?_eq_some_getD0 l.next _ hlt]
  rw [h.next_cycNode a]

theorem Cyc.prev_get?_cycNode {l : LinkedListGenome} {vs : List Nat}
    (h : Cyc l vs) (a : Nat) :
    l.prev.get? (cycNode vs a) = some (cycNode vs (a + (vs.length - 1))) := by
  have hlt : cycNode vs a < l.prev.length := by
    rw [h.2.2.2.1]
    exact cycNode_lt h a
  rw [get?_eq_some_getD0 l.prev _ hlt]
  rw [h.prev_cycNode a]

theorem Cyc.walkNext_cycNode {l : LinkedListGenome} {vs : List Nat}
    (h : Cyc l vs) : ∀ (m a : Nat),
    l.walkNext m (cycNode vs a) = some (cycNode vs (a + m)) := by
  intro m
  induction m with
  | zero => intro a; rfl
  | succ m ih =>
    intro a
    have harith : a + 1 + m = a + (m + 1) := by omega
    simp only [LinkedListGenome.walkNext, h.next_get?_cycNode a, ih (a + 1),
      harith]

theorem Cyc.walkPrev_cycNode {l : LinkedListGenome} {vs : List Nat}
    (h : Cyc l vs) : ∀ (m a : Nat),
    l.walkPrev m (cycNode vs a) = some (cycNode vs (a + m * (vs.length - 1)))
    := by
  intro m
  induction m with
  | zero =>
    intro a
    rw [LinkedListGenome.walkPrev]
    have harith : a + 0 * (vs.length - 1) = a := by omega
    rw [harith]
  | succ m ih =>
    intro a
    have harith : a + (vs.length - 1) + m * (vs.length - 1) =
        a + (m + 1) * (vs.length - 1) := by ring_nf
    simp only [LinkedListGenome.walkPrev, h.prev_get?_cycNode a,
      ih (a + (vs.length - 1)), harith]

/-! ### Position arithmetic for walks -/

theorem cycNodeI_natCast (vs : List Nat) (a : Nat) :
    cycNodeI vs (a : Int) = cycNode vs a := by
  rw [cycNodeI, cycNode_mod, ← Int.natCast_mod, Int.toNat_natCast]

theorem LinkedListGenome.get_index_cyc {l : LinkedListGenome} {vs : List Nat}
    (h : CWF l vs) (pos : Int) :
    l.get_index pos = some (cycNode vs pos.toNat) := by
  obtain ⟨hc, hh⟩ := h
  have h0 : (0 : Nat) = cycNode vs 0 := by
    rw [cycNode_mod, Nat.zero_mod, hh]
  rw [LinkedListGenome.get_index, h0, hc.walkNext_cycNode pos.toNat 0,
    Nat.zero_add]

theorem LinkedListGenome.move_offset_cyc {l : LinkedListGenome}
    {vs : List Nat} (h : Cyc l vs) (a : Nat) (of : Int) :
    l.move_offset (cycNode vs a) of = some (cycNodeI vs ((a : Int) + of)) := by
  rw [LinkedListGenome.move_offset]
  by_cases hof : 0 ≤ of
  · rw [if_pos hof, h.walkNext_cycNode of.toNat a]
    have hcast : (a : Int) + of = ((a + of.toNat : Nat) : Int) := by
      push_cast
      rw [Int.toNat_of_nonneg hof]
    rw [hcast, cycNodeI_natCast]
  · rw [if_neg hof, h.walkPrev_cycNode (-of).toNat a]
    have hn := h.len_pos
    congr 1
    rw [cycNodeI, cycNode_mod]
    congr 1
    have hm : ((-of).toNat : Int) = -of := Int.toNat_of_nonneg (by omega)
    have hc1 : ((a + (-of).toNat * (vs.length - 1) : Nat) : Int) =
        ((a : Int) + of) + (vs.length : Int) * ((-of).toNat : Int) := by
      push_cast [Nat.cast_sub (by omega : 1 ≤ vs.length)]
      rw [hm]
      ring
    have hcast2 : (((a + (-of).toNat * (vs.length - 1)) % vs.length : Nat) :
        Int) = ((a : Int) + of) % (vs.length : Int) := by
      rw [Int.natCast_mod, hc1, Int.add_mul_emod_self_left]
    rw [← hcast2, Int.toNat_natCast]

/-! ### Splice lemmas on plain lists -/

theorem getD0_get? (xs : List Nat) (i : Nat) :
    xs.getD i 0 = (xs.get? i).getD 0 := by
  rw [List.getD_eq_getElem?_getD, List.get?_eq_getElem?]

theorem get?_replicate (n v i : Nat) (h : i < n) :
    (List.replicate n v).get? i = some v := by
  induction n generalizing i with
  | zero => omega
  | succ n ih =>
    rw [List.replicate_succ]
    cases i with
    | zero => rfl
    | succ i =>
      rw [List.get?_cons_succ]
      exact ih i (by omega)

theorem length_splice (xs ys : List Nat) (c : Nat) (hc : c ≤ xs.length) :
    (xs.take c ++ ys ++ xs.drop c).length = xs.length + ys.length := by
  simp only [List.length_append, List.length_take, List.length_drop]
  omega

theorem getD_splice (xs ys : List Nat) (c : Nat) (hc : c ≤ xs.length)
    (i : Nat) :
    (xs.take c ++ ys ++ xs.drop c).getD i 0 =
      if i < c then xs.getD i 0
      else if i < c + ys.length then ys.getD (i - c) 0
      else xs.getD (i - ys.length) 0 := by
  have hlt : (xs.take c).length = c := by
    rw [List.length_take]
    omega
  rw [List.append_assoc]
  by_cases h1 : i < c
  · rw [if_pos h1, getD0_get?, getD0_get?,
      List.get?_append (by omega : i < (xs.take c).length),
      List.get?_take h1]
  · rw [if_neg h1, getD0_get?,
      List.get?_append_right (by omega : (xs.take c).length ≤ i), hlt]
    by_cases h2 : i < c + ys.length
    · rw [if_pos h2, getD0_get?,
        List.get?_append (by omega : i - c < ys.length)]
    · rw [if_neg h2,
        List.get?_append_right (by omega : ys.length ≤ i - c),
        List.get?_drop, getD0_get?]
      have : c + (i - c - ys.length) = i - ys.length := by omega
      rw [this]

theorem getD_append_left0 (xs ys : List Nat) (i : Nat) (h : i < xs.length) :
    (xs ++ ys).getD i 0 = xs.getD i 0 := by
  rw [getD0_get?, getD0_get?, List.get?_append h]

theorem getD_append_right0 (xs ys : List Nat) (i : Nat)
    (h : xs.length ≤ i) :
    (xs ++ ys).getD i 0 = ys.getD (i - xs.length) 0 := by
  rw [getD0_get?, getD0_get?, List.get?_append_right h]

theorem getD_set_ne0 (xs : List Nat) (i j v : Nat) (h : i ≠ j) :
    (xs.set i v).getD j 0 = xs.getD j 0 := by
  rw [getD0_get?, getD0_get?, List.get?_set_ne v xs h]

theorem getD_set_eq0 (xs : List Nat) (i v : Nat) (h : i < xs.length) :
    (xs.set i v).getD i 0 = v := by
  rw [getD0_get?, List.get?_set_eq_of_lt v h]
  rfl

theorem getD_replicate0 (n v i : Nat) (h : i < n) :
    (List.replicate n v).getD i 0 = v := by
  rw [getD0_get?, get?_replicate n v i h]
  rfl

theorem getD_oob (xs : List Nat) (i : Nat) (h : xs.length ≤ i) :
    xs.getD i 0 = 0 := by
  rw [getD0_get?, List.get?_len_le h]
  rfl

/-! ### The spliced node listing -/

theorem getD_range_map (n len i : Nat) (h : i < len) :
    ((List.range len).map (fun k => n + k)).getD i 0 = n + i := by
  have h1 : i < (List.range len).length := by
    rw [List.length_range]
    exact h
  rw [getD_map_lt (List.range len) _ i 0 0 h1, getD0_get?,
    List.get?_range h]
  rfl

theorem length_vsCut (vs : List Nat) (n m len : Nat) (hm : m ≤ vs.length) :
    (vsCut vs n m len).length = vs.length + len := by
  rw [vsCut, length_splice vs _ m hm, List.length_map, List.length_range]

theorem nthv_vsCut (vs : List Nat) (n m len : Nat) (hm : m ≤ vs.length)
    (k : Nat) :
    nthv (vsCut vs n m len) k =
      if k < m then nthv vs k
      else if k < m + len then n + (k - m)
      else nthv vs (k - len) := by
  rw [vsCut, nthv, getD_splice vs _ m hm k, List.length_map,
    List.length_range]
  by_cases h1 : k < m
  · rw [if_pos h1, if_pos h1]
    rfl
  · rw [if_neg h1, if_neg h1]
    by_cases h2 : k < m + len
    · rw [if_pos h2, if_pos h2, getD_range_map n len (k - m) (by omega)]
    · rw [if_neg h2, if_neg h2]
      rfl

theorem perm_vsCut (vs : List Nat) (m len : Nat)
    (hperm : vs.Perm (List.range vs.length)) :
    (vsCut vs vs.length m len).Perm (List.range (vs.length + len)) := by
  rw [vsCut, List.range_add]
  have h1 : (vs.take m ++ (List.range len).map (fun k => vs.length + k) ++
      vs.drop m).Perm
      ((vs.take m ++ vs.drop m) ++ (List.range len).map
        (fun k => vs.length + k)) := by
    rw [List.append_assoc, List.append_assoc]
    exact List.Perm.append_left _ List.perm_append_comm
  rw [List.take_append_drop] at h1
  refine h1.trans ?_
  have h2 : ((List.range len).map (fun k => vs.length + k)) =
      ((List.range len).map (fun x => vs.length + x)) := rfl
  exact List.Perm.append hperm (by rw [h2])

/-! ### Field equations and pointer reads of the spliced linked genome -/

theorem getD_range_map1 (n len i : Nat) (h : i < len) :
    ((List.range len).map (fun k => n + k + 1)).getD i 0 = n + i + 1 := by
  have h1 : i < (List.range len).length := by
    rw [List.length_range]
    exact h
  rw [getD_map_lt (List.range len) _ i 0 0 h1, getD0_get?,
    List.get?_range h]
  rfl

theorem spliceLinked_id (l : LinkedListGenome) (i len : Nat) :
    (spliceLinked l i len).next_te_id = l.next_te_id + 1 := rfl

theorem spliceLinked_nuc (l : LinkedListGenome) (i len : Nat) :
    (spliceLinked l i len).nuc = l.nuc ++ List.replicate len l.next_te_id :=
  rfl

theorem spliceLinked_next (l : LinkedListGenome) (i len : Nat) :
    (spliceLinked l i len).next =
      (l.next ++ ((List.range (len - 1)).map
        (fun k => l.nuc.length + k + 1) ++ [i])).set (l.prev.getD i 0)
        l.nuc.length := rfl

theorem spliceLinked_prev (l : LinkedListGenome) (i len : Nat) :
    (spliceLinked l i len).prev =
      (l.prev ++ ((l.prev.getD i 0) :: (List.range (len - 1)).map
        (fun k => l.nuc.length + k))).set i (l.nuc.length + len - 1) := rfl

theorem spliceLinked_active (l : LinkedListGenome) (i len : Nat) :
    (spliceLinked l i len).active =
      dictSet (collide l.active (l.nuc.getD i 0)) l.next_te_id
        (l.nuc.length, len) := rfl

theorem spliceLinked_nuc_len (l : LinkedListGenome) (i len : Nat) :
    (spliceLinked l i len).nuc.length = l.nuc.length + len := by
  rw [spliceLinked_nuc, List.length_append, List.length_replicate]

theorem spliceLinked_next_len (l : LinkedListGenome) (i len : Nat)
    (hn : l.next.length = l.nuc.length) (hlen : 1 ≤ len) :
    (spliceLinked l i len).next.length = l.nuc.length + len := by
  rw [spliceLinked_next, List.length_set, List.length_append,
    List.length_append, List.length_map, List.length_range, hn]
  simp only [List.length_cons, List.length_nil]
  omega

theorem spliceLinked_prev_len (l : LinkedListGenome) (i len : Nat)
    (hp : l.prev.length = l.nuc.length) (hlen : 1 ≤ len) :
    (spliceLinked l i len).prev.length = l.nuc.length + len := by
  rw [spliceLinked_prev, List.length_set, List.length_append,
    List.length_cons, List.length_map, List.length_range, hp]
  omega

theorem spliceNext_getD_j (l : LinkedListGenome) (i len : Nat)
    (hn : l.next.length = l.nuc.length)
    (hj : l.prev.getD i 0 < l.nuc.length) :
    (spliceLinked l i len).next.getD (l.prev.getD i 0) 0 = l.nuc.length := by
  rw [spliceLinked_next]
  refine getD_set_eq0 _ _ _ ?_
  rw [List.length_append, hn]
  omega

theorem spliceNext_getD_old (l : LinkedListGenome) (i len v : Nat)
    (hv : v < l.nuc.length) (hne : v ≠ l.prev.getD i 0)
    (hn : l.next.length = l.nuc.length) :
    (spliceLinked l i len).next.getD v 0 = l.next.getD v 0 := by
  rw [spliceLinked_next, getD_set_ne0 _ _ _ _ (fun hc => hne hc.symm),
    getD_append_left0 _ _ _ (by omega)]

theorem spliceNext_getD_new (l : LinkedListGenome) (i len c : Nat)
    (hc : c < len - 1) (hn : l.next.length = l.nuc.length)
    (hj : l.prev.getD i 0 < l.nuc.length) :
    (spliceLinked l i len).next.getD (l.nuc.length + c) 0 =
      l.nuc.length + c + 1 := by
  rw [spliceLinked_next, getD_set_ne0 _ _ _ _ (by omega),
    getD_append_right0 _ _ _ (by omega)]
  have hidx : l.nuc.length + c - l.next.length = c := by omega
  rw [hidx, getD_append_left0 _ _ _ (by
    rw [List.length_map, List.length_range]
    exact hc), getD_range_map1 _ _ _ hc]

theorem spliceNext_getD_last (l : LinkedListGenome) (i len : Nat)
    (hn : l.next.length = l.nuc.length)
    (hj : l.prev.getD i 0 < l.nuc.length) (hlen : 1 ≤ len) :
    (spliceLinked l i len).next.getD (l.nuc.length + (len - 1)) 0 = i := by
  rw [spliceLinked_next, getD_set_ne0 _ _ _ _ (by omega),
    getD_append_right0 _ _ _ (by omega)]
  have hidx : l.nuc.length + (len - 1) - l.next.length = len - 1 := by omega
  rw [hidx, getD_append_right0 _ _ _ (by
    rw [List.length_map, List.length_range])]
  rw [List.length_map, List.length_range, Nat.sub_self]
  rfl

theorem splicePrev_getD_i (l : LinkedListGenome) (i len : Nat)
    (hp : l.prev.length = l.nuc.length) (hi : i < l.nuc.length) :
    (spliceLinked l i len).prev.getD i 0 = l.nuc.length + len - 1 := by
  rw [spliceLinked_prev]
  refine getD_set_eq0 _ _ _ ?_
  rw [List.length_append, hp]
  omega

theorem splicePrev_getD_old (l : LinkedListGenome) (i len v : Nat)
    (hv : v < l.nuc.length) (hne : v ≠ i)
    (hp : l.prev.length = l.nuc.length) :
    (spliceLinked l i len).prev.getD v 0 = l.prev.getD v 0 := by
  rw [spliceLinked_prev, getD_set_ne0 _ _ _ _ (fun hc => hne hc.symm),
    getD_append_left0 _ _ _ (by omega)]

theorem splicePrev_getD_first (l : LinkedListGenome) (i len : Nat)
    (hi : i < l.nuc.length) (hp : l.prev.length = l.nuc.length) :
    (spliceLinked l i len).prev.getD l.nuc.length 0 = l.prev.getD i 0 := by
  rw [spliceLinked_prev, getD_set_ne0 _ _ _ _ (by omega),
    getD_append_right0 _ _ _ (by omega)]
  have hidx : l.nuc.length - l.prev.length = 0 := by omega
  rw [hidx]
  rfl

theorem splicePrev_getD_new (l : LinkedListGenome) (i len c : Nat)
    (hc1 : 1 ≤ c) (hc2 : c < len) (hi : i < l.nuc.length)
    (hp : l.prev.length = l.nuc.length) :
    (spliceLinked l i len).prev.getD (l.nuc.length + c) 0 =
      l.nuc.length + c - 1 := by
  rw [spliceLinked_prev, getD_set_ne0 _ _ _ _ (by omega),
    getD_append_right0 _ _ _ (by omega)]
  have hidx : l.nuc.length + c - l.prev.length = c := by omega
  rw [hidx]
  have hc3 : c = (c - 1) + 1 := by omega
  rw [hc3, List.getD_cons_succ, getD_range_map _ _ _ (by omega)]
  omega

theorem spliceNuc_getD_old (l : LinkedListGenome) (i len v : Nat)
    (hv : v < l.nuc.length) :
    (spliceLinked l i len).nuc.getD v 0 = l.nuc.getD v 0 := by
  rw [spliceLinked_nuc, getD_append_left0 _ _ _ hv]

theorem spliceNuc_getD_new (l : LinkedListGenome) (i len c : Nat)
    (hc : c < len) :
    (spliceLinked l i len).nuc.getD (l.nuc.length + c) 0 = l.next_te_id := by
  rw [spliceLinked_nuc, getD_append_right0 _ _ _ (by omega)]
  have hidx : l.nuc.length + c - l.nuc.length = c := by omega
  rw [hidx, getD_replicate0 _ _ _ hc]

theorem LinkedListGenome.insert_at_index_eq (l : LinkedListGenome)
    (i len : Nat) (hi : i < l.nuc.length)
    (hn : l.next.length = l.nuc.length)
    (hp : l.prev.length = l.nuc.length)
    (hj : l.prev.getD i 0 < l.nuc.length) :
    l.insert_te_at_index i len = some (l.next_te_id, spliceLinked l i len) := by
  have hga : l.nuc.get? i = some (l.nuc.getD i 0) := get?_eq_some_getD0 _ _ hi
  have hgp : l.prev.get? i = some (l.prev.getD i 0) :=
    get?_eq_some_getD0 _ _ (by omega)
  have hsc1 : setChecked (l.next ++
      ((List.range (len - 1)).map (fun k => l.nuc.length + k + 1) ++ [i]))
      (l.prev.getD i 0) l.nuc.length =
      some ((l.next ++
        ((List.range (len - 1)).map (fun k => l.nuc.length + k + 1) ++
          [i])).set (l.prev.getD i 0) l.nuc.length) := by
    rw [setChecked, if_pos]
    rw [List.length_append]
    omega
  have hsc2 : setChecked (l.prev ++
      ((l.prev.getD i 0) ::
        (List.range (len - 1)).map (fun k => l.nuc.length + k)))
      i (l.nuc.length + len - 1) =
      some ((l.prev ++
        ((l.prev.getD i 0) ::
          (List.range (len - 1)).map (fun k => l.nuc.length + k))).set i
        (l.nuc.length + len - 1)) := by
    rw [setChecked, if_pos]
    rw [List.length_append]
    omega
  simp only [LinkedListGenome.insert_te_at_index, hga, hgp, hsc1, hsc2]
  rfl

/-! ### The spliced genome is again a cycle along the spliced listing -/

theorem jidx_cases {l : LinkedListGenome} {vs : List Nat} (h : Cyc l vs)
    (m : Nat) (hm : m < vs.length) :
    ((m + vs.length - 1) % vs.length = m - 1 ∧ 1 ≤ m) ∨
    ((m + vs.length - 1) % vs.length = vs.length - 1 ∧ m = 0) := by
  have hpos := h.len_pos
  by_cases hm0 : m = 0
  · right
    refine ⟨?_, hm0⟩
    rw [hm0]
    have he : 0 + vs.length - 1 = vs.length - 1 := by omega
    rw [he, Nat.mod_eq_of_lt (by omega)]
  · left
    refine ⟨?_, by omega⟩
    have he : m + vs.length - 1 = (m - 1) + vs.length := by omega
    rw [he, Nat.add_mod_right, Nat.mod_eq_of_lt (by omega)]

theorem spliceNext_cycstep {l : LinkedListGenome} {vs : List Nat}
    (h : Cyc l vs) (m len : Nat) (hm : m < vs.length) (hlen : 1 ≤ len)
    (k : Nat) (hk : k < vs.length + len) :
    (spliceLinked l (nthv vs m) len).next.getD
        (nthv (vsCut vs vs.length m len) k) 0 =
      nthv (vsCut vs vs.length m len) ((k + 1) % (vs.length + len)) := by
  have hpos := h.len_pos
  have hnd := h.nodup
  have hnucl := h.2.1
  have hnl := h.2.2.1
  have hpl := h.2.2.2.1
  have hnext := h.2.2.2.2.2.1
  have hprev := h.2.2.2.2.2.2
  have hvlt : ∀ x, x < vs.length → nthv vs x < vs.length :=
    fun x hx => h.nthv_lt x hx
  have hjp := hprev m hm
  have hjidx_lt : (m + vs.length - 1) % vs.length < vs.length :=
    Nat.mod_lt _ hpos
  have hj_lt : l.prev.getD (nthv vs m) 0 < vs.length := by
    rw [hjp]
    exact hvlt _ hjidx_lt
  have hA : l.next.length = l.nuc.length := by omega
  have hB : l.prev.length = l.nuc.length := by omega
  have hj' : l.prev.getD (nthv vs m) 0 < l.nuc.length := by omega
  have hi' : nthv vs m < l.nuc.length := by
    have := hvlt m hm
    omega
  have hjidx := jidx_cases h m hm
  have hnth := fun x => nthv_vsCut vs vs.length m len (by omega) x
  by_cases h1 : k < m
  · by_cases h2 : k + 1 < m
    · -- A: node and successor both in the prefix
      have hneq : nthv vs k ≠ l.prev.getD (nthv vs m) 0 := by
        rw [hjp]
        intro hc
        have hinj := nthv_inj vs hnd k ((m + vs.length - 1) % vs.length)
          (by omega) (by omega) hc
        rcases hjidx with ⟨he, hm1⟩ | ⟨he, hm0⟩ <;> rw [he] at hinj <;> omega
      rw [hnth k, if_pos h1,
        spliceNext_getD_old l (nthv vs m) len (nthv vs k)
          (by have := hvlt k (by omega); omega) hneq hA,
        hnext k (by omega), Nat.mod_eq_of_lt (by omega : k + 1 < vs.length),
        Nat.mod_eq_of_lt (by omega : k + 1 < vs.length + len),
        hnth (k + 1), if_pos (by omega)]
    · -- B: node is the predecessor of the cut, successor is the new block
      have hm1 : 1 ≤ m := by omega
      have hkm : k = m - 1 := by omega
      have hjidxv : (m + vs.length - 1) % vs.length = m - 1 := by
        rcases hjidx with ⟨he, _⟩ | ⟨_, hm0⟩
        · exact he
        · omega
      have hnode : nthv vs k = l.prev.getD (nthv vs m) 0 := by
        rw [hjp, hjidxv, hkm]
      rw [hnth k, if_pos h1, hnode,
        spliceNext_getD_j l (nthv vs m) len hA hj', hnucl,
        Nat.mod_eq_of_lt (by omega : k + 1 < vs.length + len),
        hnth (k + 1), if_neg (by omega), if_pos (by omega)]
      omega
  · by_cases h3 : k < m + len
    · by_cases h4 : k + 1 < m + len
      · -- C: inside the new block, not its last node
        rw [hnth k, if_neg h1, if_pos h3]
        have hnew := spliceNext_getD_new l (nthv vs m) len (k - m)
          (by omega) hA hj'
        rw [hnucl] at hnew
        rw [hnew,
          Nat.mod_eq_of_lt (by omega : k + 1 < vs.length + len),
          hnth (k + 1), if_neg (by omega), if_pos (by omega)]
        omega
      · -- D: the last node of the new block points back at the cut node
        rw [hnth k, if_neg h1, if_pos h3]
        have hkm : k - m = len - 1 := by omega
        rw [hkm]
        have hlast := spliceNext_getD_last l (nthv vs m) len hA hj' hlen
        rw [hnucl] at hlast
        rw [hlast,
          Nat.mod_eq_of_lt (by omega : k + 1 < vs.length + len),
          hnth (k + 1), if_neg (by omega), if_neg (by omega)]
        congr 1
        omega
    · by_cases h5 : k + 1 < vs.length + len
      · -- E: in the suffix, successor also in the suffix
        have hneq : nthv vs (k - len) ≠ l.prev.getD (nthv vs m) 0 := by
          rw [hjp]
          intro hc
          have hinj := nthv_inj vs hnd (k - len)
            ((m + vs.length - 1) % vs.length) (by omega) (by omega) hc
          rcases hjidx with ⟨he, hm1⟩ | ⟨he, hm0⟩ <;> rw [he] at hinj <;>
            omega
        rw [hnth k, if_neg h1, if_neg h3,
          spliceNext_getD_old l (nthv vs m) len (nthv vs (k - len))
            (by have := hvlt (k - len) (by omega); omega) hneq hA,
          hnext (k - len) (by omega),
          Nat.mod_eq_of_lt (by omega : k - len + 1 < vs.length),
          Nat.mod_eq_of_lt h5, hnth (k + 1), if_neg (by omega),
          if_neg (by omega)]
        congr 1
        omega
      · -- F: the last listed node wraps to position 0
        have hkv : k = vs.length + len - 1 := by omega
        have hklen : k - len = vs.length - 1 := by omega
        have hmod : (k + 1) % (vs.length + len) = 0 := by
          have he : k + 1 = vs.length + len := by omega
          rw [he, Nat.mod_self]
        rw [hnth k, if_neg h1, if_neg h3, hklen, hmod, hnth 0]
        rcases hjidx with ⟨he, hm1⟩ | ⟨he, hm0⟩
        · -- m ≥ 1: the last suffix node is an old node, not j
          have hneq : nthv vs (vs.length - 1) ≠ l.prev.getD (nthv vs m) 0 := by
            rw [hjp, he]
            intro hc
            have hinj := nthv_inj vs hnd (vs.length - 1) (m - 1)
              (by omega) (by omega) hc
            omega
          rw [spliceNext_getD_old l (nthv vs m) len (nthv vs (vs.length - 1))
              (by have := hvlt (vs.length - 1) (by omega); omega) hneq hA,
            hnext (vs.length - 1) (by omega), if_pos (by omega)]
          congr 1
          have he2 : vs.length - 1 + 1 = vs.length := by omega
          rw [he2, Nat.mod_self]
        · -- m = 0: the last suffix node is j itself
          have hnode : nthv vs (vs.length - 1) = l.prev.getD (nthv vs m) 0 := by
            rw [hjp, he]
          rw [hnode, spliceNext_getD_j l (nthv vs m) len hA hj', hnucl,
            if_neg (by omega), if_pos (by omega)]
          omega

theorem splicePrev_cycstep {l : LinkedListGenome} {vs : List Nat}
    (h : Cyc l vs) (m len : Nat) (hm : m < vs.length) (hlen : 1 ≤ len)
    (k : Nat) (hk : k < vs.length + len) :
    (spliceLinked l (nthv vs m) len).prev.getD
        (nthv (vsCut vs vs.length m len) k) 0 =
      nthv (vsCut vs vs.length m len)
        ((k + (vs.length + len) - 1) % (vs.length + len)) := by
  have hpos := h.len_pos
  have hnd := h.nodup
  have hnucl := h.2.1
  have hnl := h.2.2.1
  have hpl := h.2.2.2.1
  have hprev := h.2.2.2.2.2.2
  have hvlt : ∀ x, x < vs.length → nthv vs x < vs.length :=
    fun x hx => h.nthv_lt x hx
  have hjp := hprev m hm
  have hjidx_lt : (m + vs.length - 1) % vs.length < vs.length :=
    Nat.mod_lt _ hpos
  have hj_lt : l.prev.getD (nthv vs m) 0 < vs.length := by
    rw [hjp]
    exact hvlt _ hjidx_lt
  have hB : l.prev.length = l.nuc.length := by omega
  have hi' : nthv vs m < l.nuc.length := by
    have := hvlt m hm
    omega
  have hjidx := jidx_cases h m hm
  have hnth := fun x => nthv_vsCut vs vs.length m len (by omega) x
  have hmodk : ∀ x, 1 ≤ x → x < vs.length + len →
      (x + (vs.length + len) - 1) % (vs.length + len) = x - 1 := by
    intro x hx1 hx2
    have he : x + (vs.length + len) - 1 = (x - 1) + (vs.length + len) := by
      omega
    rw [he, Nat.add_mod_right, Nat.mod_eq_of_lt (by omega)]
  have hmod0 : (0 + (vs.length + len) - 1) % (vs.length + len) =
      vs.length + len - 1 := by
    have he : 0 + (vs.length + len) - 1 = vs.length + len - 1 := by omega
    rw [he, Nat.mod_eq_of_lt (by omega)]
  by_cases h1 : k < m
  · have hneq : nthv vs k ≠ nthv vs m := by
      intro hc
      have hinj := nthv_inj vs hnd k m (by omega) (by omega) hc
      omega
    by_cases h2 : k = 0
    · -- the origin: its predecessor is the last listed node
      have hm1 : 1 ≤ m := by omega
      rw [hnth k, if_pos h1,
        splicePrev_getD_old l (nthv vs m) len (nthv vs k)
          (by have := hvlt k (by omega); omega) (by rw [h2] at hneq ⊢; exact hneq) hB,
        hprev k (by omega), h2, hmod0, hnth (vs.length + len - 1),
        if_neg (by omega), if_neg (by omega)]
      congr 1
      have he : 0 + vs.length - 1 = vs.length - 1 := by omega
      rw [he, Nat.mod_eq_of_lt (by omega)]
      omega
    · -- inside the prefix, not the origin
      rw [hnth k, if_pos h1,
        splicePrev_getD_old l (nthv vs m) len (nthv vs k)
          (by have := hvlt k (by omega); omega) hneq hB,
        hprev k (by omega), hmodk k (by omega) (by omega),
        hnth (k - 1), if_pos (by omega)]
      congr 1
      have he : k + vs.length - 1 = (k - 1) + vs.length := by omega
      rw [he, Nat.add_mod_right, Nat.mod_eq_of_lt (by omega)]
  · by_cases h3 : k < m + len
    · by_cases h4 : k = m
      · -- the first new node: predecessor is j
        subst h4
        have hkm : k - k = 0 := by omega
        rw [hnth k, if_neg h1, if_pos h3, hkm, Nat.add_zero]
        have hfirst := splicePrev_getD_first l (nthv vs k) len hi' hB
        rw [hnucl] at hfirst
        rw [hfirst, hjp]
        rcases hjidx with ⟨he, hm1⟩ | ⟨he, hm0⟩
        · rw [he, hmodk k (by omega) (by omega), hnth (k - 1),
            if_pos (by omega)]
        · subst hm0
          rw [he, hmod0, hnth (vs.length + len - 1),
            if_neg (by omega), if_neg (by omega)]
          congr 1
          omega
      · -- inside the new block
        rw [hnth k, if_neg h1, if_pos h3]
        have hnew := splicePrev_getD_new l (nthv vs m) len (k - m)
          (by omega) (by omega) hi' hB
        rw [hnucl] at hnew
        rw [hnew, hmodk k (by omega) (by omega), hnth (k - 1),
          if_neg (by omega), if_pos (by omega)]
        omega
    · by_cases h5 : k = m + len
      · -- the cut node: predecessor is the last new node
        have hkl : k - len = m := by omega
        rw [hnth k, if_neg h1, if_neg h3, hkl]
        have hii := splicePrev_getD_i l (nthv vs m) len hB hi'
        rw [hnucl] at hii
        rw [hii, hmodk k (by omega) (by omega), hnth (k - 1),
          if_neg (by omega), if_pos (by omega)]
        omega
      · -- in the suffix, after the cut node
        have hneq : nthv vs (k - len) ≠ nthv vs m := by
          intro hc
          have hinj := nthv_inj vs hnd (k - len) m (by omega) (by omega) hc
          omega
        rw [hnth k, if_neg h1, if_neg h3,
          splicePrev_getD_old l (nthv vs m) len (nthv vs (k - len))
            (by have := hvlt (k - len) (by omega); omega) hneq hB,
          hprev (k - len) (by omega), hmodk k (by omega) (by omega),
          hnth (k - 1), if_neg (by omega), if_neg (by omega)]
        congr 1
        have he : k - len + vs.length - 1 = (k - len - 1) + vs.length := by
          omega
        rw [he, Nat.add_mod_right, Nat.mod_eq_of_lt (by omega)]
        omega

/-! ### A rotated listing of a cycle is again a listing -/

theorem nthv_rotate (vs : List Nat) (r k : Nat) (hk : k < vs.length) :
    nthv (vs.rotate r) k = nthv vs ((k + r) % vs.length) := by
  have h1 : k < (vs.rotate r).length := by
    rw [List.length_rotate]
    exact hk
  have h2 : (k + r) % vs.length < vs.length :=
    Nat.mod_lt _ (by omega)
  rw [nthv, nthv, List.getD_eq_getElem _ _ h1, List.getD_eq_getElem _ _ h2,
    List.getElem_rotate vs r k h1]

theorem cyc_rotate {l : LinkedListGenome} {vs : List Nat} (h : Cyc l vs)
    (r : Nat) : Cyc l (vs.rotate r) := by
  have hpos := h.len_pos
  have hnucl := h.2.1
  have hnl := h.2.2.1
  have hpl := h.2.2.2.1
  have hperm := h.2.2.2.2.1
  have hnext := h.2.2.2.2.2.1
  have hprev := h.2.2.2.2.2.2
  have hlr : (vs.rotate r).length = vs.length := List.length_rotate vs r
  refine ⟨by omega, by omega, by omega, by omega, ?_, ?_, ?_⟩
  · rw [hlr]
    exact (vs.rotate_perm r).trans hperm
  · intro k hk
    rw [hlr] at hk ⊢
    rw [nthv_rotate vs r k hk, hnext _ (Nat.mod_lt _ hpos),
      nthv_rotate vs r ((k + 1) % vs.length) (Nat.mod_lt _ hpos)]
    congr 1
    rw [Nat.mod_add_mod, Nat.mod_add_mod]
    congr 1
    omega
  · intro k hk
    rw [hlr] at hk ⊢
    rw [nthv_rotate vs r k hk, hprev _ (Nat.mod_lt _ hpos),
      nthv_rotate vs r ((k + vs.length - 1) % vs.length)
        (Nat.mod_lt _ hpos)]
    congr 1
    have e1 : (k + r) % vs.length + vs.length - 1 =
        (k + r) % vs.length + (vs.length - 1) := by omega
    rw [e1, Nat.mod_add_mod, Nat.mod_add_mod]
    congr 1
    omega

/-! ### Tag order of the spliced genome -/

theorem tagsOf_vsCut {l : LinkedListGenome} {vs : List Nat} (h : Cyc l vs)
    (m len : Nat) :
    tagsOf (spliceLinked l (nthv vs m) len) (vsCut vs vs.length m len) =
      (tagsOf l vs).take m ++ List.replicate len l.next_te_id ++
        (tagsOf l vs).drop m := by
  have hnucl := h.2.1
  have hvl : ∀ x ∈ vs, x < vs.length := h.nodes_lt
  rw [tagsOf, vsCut, List.map_append, List.map_append]
  rw [tagsOf, ← List.map_take, ← List.map_drop]
  congr 1
  congr 1
  · refine List.map_congr_left ?_
    intro v hv
    have hvlt : v < vs.length := hvl v (List.mem_of_mem_take hv)
    exact spliceNuc_getD_old l (nthv vs m) len v (by omega)
  · refine List.ext_getElem ?_ ?_
    · rw [List.length_map, List.length_map, List.length_range,
        List.length_replicate]
    · intro idx h1 h2
      have hidx : idx < len := by
        rw [List.length_replicate] at h2
        exact h2
      rw [List.getElem_map, List.getElem_map, List.getElem_range,
        List.getElem_replicate]
      have hnew := spliceNuc_getD_new l (nthv vs m) len idx hidx
      rw [hnucl] at hnew
      exact hnew
  · refine List.map_congr_left ?_
    intro v hv
    have hvlt : v < vs.length := hvl v (List.mem_of_mem_drop hv)
    exact spliceNuc_getD_old l (nthv vs m) len v (by omega)

theorem vsCut_zero_rotate (vs : List Nat) (len : Nat) :
    (vsCut vs vs.length 0 len).rotate len =
      vs ++ (List.range len).map (fun k => vs.length + k) := by
  rw [vsCut, List.take_zero, List.drop_zero, List.nil_append]
  have hbl : ((List.range len).map (fun k => vs.length + k)).length = len := by
    rw [List.length_map, List.length_range]
  rw [List.rotate_eq_drop_append_take (by rw [List.length_append, hbl]; omega)]
  rw [List.drop_left' hbl, List.take_left' hbl]

/-! ### The render traversal visits the listing in order -/

theorem length_tagsOf (l : LinkedListGenome) (vs : List Nat) :
    (tagsOf l vs).length = vs.length := by
  rw [tagsOf, List.length_map]

theorem tagsOf_getD (l : LinkedListGenome) (vs : List Nat) (j : Nat)
    (hj : j < vs.length) :
    (tagsOf l vs).getD j 0 = l.nuc.getD (nthv vs j) 0 := by
  show (vs.map (fun v => l.nuc.getD v 0)).getD j 0 = l.nuc.getD (vs.getD j 0) 0
  exact getD_map_lt vs _ j 0 0 hj

theorem tagsFrom_cyc {l : LinkedListGenome} {vs : List Nat} (h : Cyc l vs)
    (hh : nthv vs 0 = 0) :
    ∀ fuel j, j ≤ vs.length → 1 ≤ j → vs.length - j < fuel →
    l.tagsFrom fuel (nthv vs (j % vs.length)) =
      some ((tagsOf l vs).drop j) := by
  have hpos := h.len_pos
  have hnd := h.nodup
  have hnucl := h.2.1
  intro fuel
  induction fuel with
  | zero => intro j h1 h2 h3; omega
  | succ fuel ih =>
    intro j h1 h2 h3
    by_cases hj : j = vs.length
    · rw [hj, Nat.mod_self, hh, LinkedListGenome.tagsFrom]
      rw [List.drop_eq_nil_of_le (by rw [length_tagsOf])]
      rfl
    · have hjlt : j < vs.length := by omega
      rw [Nat.mod_eq_of_lt hjlt]
      have hne0 : nthv vs j ≠ 0 := by
        intro hc
        rw [← hh] at hc
        have := nthv_inj vs hnd j 0 hjlt (by omega) hc
        omega
      have hnode_lt : nthv vs j < vs.length := h.nthv_lt j hjlt
      have hga : l.nuc.get? (nthv vs j) =
          some (l.nuc.getD (nthv vs j) 0) :=
        get?_eq_some_getD0 _ _ (by omega)
      have hcyc : nthv vs j = cycNode vs j := by
        rw [cycNode_mod, Nat.mod_eq_of_lt hjlt]
      have hgn : l.next.get? (nthv vs j) = some (nthv vs ((j + 1) % vs.length))
          := by
        rw [hcyc, h.next_get?_cycNode j]
        rw [cycNode_mod]
      rw [LinkedListGenome.tagsFrom, if_neg hne0]
      simp only [hga, hgn]
      rw [ih (j + 1) (by omega) (by omega) (by omega)]
      have hdrop : (tagsOf l vs).drop j =
          l.nuc.getD (nthv vs j) 0 :: (tagsOf l vs).drop (j + 1) := by
        have hlen : j < (tagsOf l vs).length := by
          rw [length_tagsOf]
          omega
        rw [List.drop_eq_getElem_cons hlen]
        congr 1
        rw [← List.getD_eq_getElem (tagsOf l vs) 0 hlen]
        exact tagsOf_getD l vs j (by omega)
      rw [hdrop]
      rfl

theorem LinkedListGenome.tags_cyc {l : LinkedListGenome} {vs : List Nat}
    (hC : CWF l vs) : l.tags = some (tagsOf l vs) := by
  obtain ⟨h, hh⟩ := hC
  have hpos := h.len_pos
  have hnucl := h.2.1
  have hnl := h.2.2.1
  have hga : l.nuc.get? 0 = some (l.nuc.getD 0 0) :=
    get?_eq_some_getD0 _ _ (by omega)
  have h0 : (0 : Nat) = cycNode vs 0 := by
    rw [cycNode_mod, Nat.zero_mod, hh]
  have hgn : l.next.get? 0 = some (nthv vs (1 % vs.length)) := by
    conv_lhs => rw [h0]
    rw [h.next_get?_cycNode 0, cycNode_mod, Nat.zero_add]
  simp only [LinkedListGenome.tags, hga, hgn, hnl]
  rw [tagsFrom_cyc h hh vs.length 1 (by omega) (by omega) (by omega),
    Option.map_some']
  have hfull : tagsOf l vs = l.nuc.getD 0 0 :: (tagsOf l vs).drop 1 := by
    have hlen0 : 0 < (tagsOf l vs).length := by
      rw [length_tagsOf]
      omega
    have h1 := List.drop_eq_getElem_cons (l := tagsOf l vs) (n := 0) hlen0
    rw [List.drop_zero] at h1
    nth_rewrite 1 [h1]
    congr 1
    rw [← List.getD_eq_getElem (tagsOf l vs) 0 hlen0]
    rw [tagsOf_getD l vs 0 (by omega), hh]
  rw [← hfull]

/-! ### Contiguous blocks under splicing -/

theorem isBlockAt_new (xs : List Nat) (nid c len : Nat) (hc : c ≤ xs.length)
    (hlen : 1 ≤ len)
    (htags : ∀ i, i < xs.length → xs.getD i 0 ≠ nid) :
    IsBlockAt (xs.take c ++ List.replicate len nid ++ xs.drop c) nid len c := by
  have hL := length_splice xs (List.replicate len nid) c hc
  rw [List.length_replicate] at hL
  constructor
  · omega
  · intro i hi
    rw [hL] at hi
    have hg := getD_splice xs (List.replicate len nid) c hc i
    rw [List.length_replicate] at hg
    rw [hg]
    by_cases h1 : i < c
    · rw [if_pos h1]
      constructor
      · intro hc2
        exact absurd hc2 (htags i (by omega))
      · omega
    · rw [if_neg h1]
      by_cases h2 : i < c + len
      · rw [if_pos h2, getD_replicate0 len nid (i - c) (by omega)]
        constructor
        · intro _
          omega
        · intro _
          rfl
      · rw [if_neg h2]
        constructor
        · intro hc2
          exact absurd hc2 (htags (i - len) (by omega))
        · omega

theorem isBlockAt_splice_left (xs : List Nat) (nid t k p c len : Nat)
    (hc : c ≤ xs.length) (hb : IsBlockAt xs t k p) (hne : t ≠ nid)
    (hpk : p + k ≤ c) :
    IsBlockAt (xs.take c ++ List.replicate len nid ++ xs.drop c) t k p := by
  have hL := length_splice xs (List.replicate len nid) c hc
  rw [List.length_replicate] at hL
  obtain ⟨hb1, hb2⟩ := hb
  constructor
  · omega
  · intro i hi
    rw [hL] at hi
    have hg := getD_splice xs (List.replicate len nid) c hc i
    rw [List.length_replicate] at hg
    rw [hg]
    by_cases h1 : i < c
    · rw [if_pos h1]
      exact hb2 i (by omega)
    · rw [if_neg h1]
      by_cases h2 : i < c + len
      · rw [if_pos h2, getD_replicate0 len nid (i - c) (by omega)]
        constructor
        · intro hc2
          exact absurd hc2.symm hne
        · omega
      · rw [if_neg h2]
        have := hb2 (i - len) (by omega)
        constructor
        · intro hc2
          have hin := this.mp hc2
          omega
        · intro hc2
          omega

theorem isBlockAt_splice_right (xs : List Nat) (nid t k p c len : Nat)
    (hc : c ≤ xs.length) (hb : IsBlockAt xs t k p) (hne : t ≠ nid)
    (hcp : c ≤ p) (hk : 1 ≤ k) :
    IsBlockAt (xs.take c ++ List.replicate len nid ++ xs.drop c) t k
      (p + len) := by
  have hL := length_splice xs (List.replicate len nid) c hc
  rw [List.length_replicate] at hL
  obtain ⟨hb1, hb2⟩ := hb
  constructor
  · omega
  · intro i hi
    rw [hL] at hi
    have hg := getD_splice xs (List.replicate len nid) c hc i
    rw [List.length_replicate] at hg
    rw [hg]
    by_cases h1 : i < c
    · rw [if_pos h1]
      have := hb2 i (by omega)
      constructor
      · intro hc2
        have hin := this.mp hc2
        omega
      · intro hc2
        omega
    · rw [if_neg h1]
      by_cases h2 : i < c + len
      · rw [if_pos h2, getD_replicate0 len nid (i - c) (by omega)]
        constructor
        · intro hc2
          exact absurd hc2.symm hne
        · omega
      · rw [if_neg h2]
        have := hb2 (i - len) (by omega)
        constructor
        · intro hc2
          have hin := this.mp hc2
          omega
        · intro hc2
          have : xs.getD (i - len) 0 = t := this.mpr (by omega)
          exact this

theorem findIdx?_eq_some_of (xs : List Nat) (t : Nat) : ∀ (p s : Nat),
    p < xs.length → (∀ i, i < p → xs.getD i 0 ≠ t) → xs.getD p 0 = t →
    List.findIdx? (fun x => decide (x = t)) xs s = some (s + p) := by
  induction xs with
  | nil => intro p s hp _ _; simp at hp
  | cons x xs ih =>
    intro p s hp hbefore hat
    rw [List.findIdx?_cons]
    by_cases hp0 : p = 0
    · rw [hp0] at hat
      have hx : x = t := hat
      rw [if_pos (by simp [hx]), hp0, Nat.add_zero]
    · have hx : x ≠ t := by
        have := hbefore 0 (by omega)
        exact this
      rw [if_neg (by simp [hx])]
      have hres := ih (p - 1) (s + 1) (by simp at hp; omega)
        (fun i hi => by
          have := hbefore (i + 1) (by omega)
          rw [List.getD_cons_succ] at this
          exact this)
        (by
          have he : p = (p - 1) + 1 := by omega
          rw [he, List.getD_cons_succ] at hat
          exact hat)
      rw [hres]
      congr 1
      omega

theorem findIdx?_of_blockAt (xs : List Nat) (t k p : Nat)
    (hb : IsBlockAt xs t k p) (hk : 1 ≤ k) :
    xs.findIdx? (· = t) = some p := by
  obtain ⟨hb1, hb2⟩ := hb
  have hp : p < xs.length := by omega
  have h0 := findIdx?_eq_some_of xs t p 0 hp
    (fun i hi => by
      intro hc
      have := (hb2 i (by omega)).mp hc
      omega)
    ((hb2 p hp).mpr (by omega))
  rw [Nat.zero_add] at h0
  exact h0

/-! ### Registry helper lemmas for the invariants -/

theorem mem_collide {β : Type} (m : List (Nat × β)) (k : Nat) (q : Nat × β)
    (h : q ∈ collide m k) : q ∈ m ∧ q.1 ≠ k := by
  rw [collide] at h
  by_cases hs : (keyFind m k).isSome
  · rw [if_pos hs] at h
    refine ⟨keyDel_subset m k q h, ?_⟩
    rw [keyDel] at h
    have := List.of_mem_filter h
    simpa using this
  · rw [if_neg hs] at h
    refine ⟨h, ?_⟩
    intro hc
    cases hf : keyFind m k with
    | some v => rw [hf] at hs; simp at hs
    | none =>
      rw [keyFind_eq_none_iff] at hf
      exact hf q h hc

theorem collide_keys_sublist {β : Type} (m : List (Nat × β)) (k : Nat) :
    ((collide m k).map Prod.fst).Sublist (m.map Prod.fst) := by
  rw [collide]
  by_cases hs : (keyFind m k).isSome
  · rw [if_pos hs, keyDel]
    exact (List.filter_sublist m).map Prod.fst
  · rw [if_neg hs]

theorem nodup_keys_after_insert {β : Type} (m : List (Nat × β)) (t0 nid : Nat)
    (v : β) (hnd : (m.map Prod.fst).Nodup) (hb : ∀ q ∈ m, q.1 < nid) :
    ((dictSet (collide m t0) nid v).map Prod.fst).Nodup := by
  have hfresh : keyFind (collide m t0) nid = none := by
    rw [keyFind_eq_none_iff]
    intro q hq
    have := hb q (mem_collide m t0 q hq).1
    omega
  rw [dictSet_fresh _ _ _ hfresh, List.map_append]
  rw [List.nodup_append]
  refine ⟨hnd.sublist (collide_keys_sublist m t0), by simp, ?_⟩
  intro x hx hy
  simp only [List.map_cons, List.map_nil, List.mem_singleton] at hy
  rw [List.mem_map] at hx
  obtain ⟨q, hq, hqx⟩ := hx
  have := hb q (mem_collide m t0 q hq).1
  omega

theorem mem_dictSet_fresh {β : Type} (m : List (Nat × β)) (t0 nid : Nat)
    (v : β) (q : Nat × β) (hb : ∀ r ∈ m, r.1 < nid)
    (hq : q ∈ dictSet (collide m t0) nid v) :
    (q ∈ m ∧ q.1 ≠ t0) ∨ q = (nid, v) := by
  have hfresh : keyFind (collide m t0) nid = none := by
    rw [keyFind_eq_none_iff]
    intro r hr
    have := hb r (mem_collide m t0 r hr).1
    omega
  rw [dictSet_fresh _ _ _ hfresh, List.mem_append] at hq
  rcases hq with h1 | h2
  · exact Or.inl (mem_collide m t0 q h1)
  · right
    simpa using h2

theorem tagsOf_getD_lt {l : LinkedListGenome} {vs : List Nat} (h : Cyc l vs)
    (nid : Nat) (htags : ∀ v ∈ l.nuc, v < nid) (i : Nat)
    (hi : i < vs.length) : (tagsOf l vs).getD i 0 < nid := by
  rw [tagsOf_getD l vs i hi]
  have hnode : nthv vs i < l.nuc.length := by
    have h1 := h.nthv_lt i hi
    have h2 := h.2.1
    omega
  refine htags _ ?_
  rw [List.getD_eq_getElem _ _ hnode]
  exact List.getElem_mem hnode

theorem cyc_spliceLinked {l : LinkedListGenome} {vs : List Nat}
    (h : Cyc l vs) (m len : Nat) (hm : m < vs.length) (hlen : 1 ≤ len) :
    Cyc (spliceLinked l (nthv vs m) len) (vsCut vs vs.length m len) := by
  have hpos := h.len_pos
  have hnucl := h.2.1
  have hnl := h.2.2.1
  have hpl := h.2.2.2.1
  have hperm := h.2.2.2.2.1
  have hlvc := length_vsCut vs vs.length m len (by omega)
  refine ⟨?_, ?_, ?_, ?_, ?_, ?_, ?_⟩
  · omega
  · rw [spliceLinked_nuc_len, hlvc]
    omega
  · rw [spliceLinked_next_len l (nthv vs m) len (by omega) hlen, hlvc]
    omega
  · rw [spliceLinked_prev_len l (nthv vs m) len (by omega) hlen, hlvc]
    omega
  · rw [hlvc]
    exact perm_vsCut vs m len hperm
  · intro k hk
    rw [hlvc] at hk ⊢
    exact spliceNext_cycstep h m len hm hlen k hk
  · intro k hk
    rw [hlvc] at hk ⊢
    exact splicePrev_cycstep h m len hm hlen k hk

/-! ### Preservation of the linked invariant by insertion -/

theorem linv_cut {l : LinkedListGenome} {vs : List Nat} (hL : LInv l vs)
    (m len : Nat) (hm1 : 1 ≤ m) (hm : m < vs.length) (hlen : 1 ≤ len) :
    LInv (spliceLinked l (nthv vs m) len) (vsCut vs vs.length m len) := by
  obtain ⟨⟨hcyc, hhead⟩, hid1, htags, hnd, hact⟩ := hL
  have hnucl := hcyc.2.1
  have hN := length_vsCut vs vs.length m len (by omega)
  have htag2 := tagsOf_vsCut hcyc m len
  have hxl : (tagsOf l vs).length = vs.length := length_tagsOf l vs
  have hnth := fun x => nthv_vsCut vs vs.length m len (by omega) x
  have ht0 : (tagsOf l vs).getD m 0 = l.nuc.getD (nthv vs m) 0 :=
    tagsOf_getD l vs m hm
  refine ⟨⟨cyc_spliceLinked hcyc m len hm hlen, ?_⟩, ?_, ?_, ?_, ?_⟩
  · rw [hnth 0, if_pos (by omega)]
    exact hhead
  · rw [spliceLinked_id]
    omega
  · intro v hv
    rw [spliceLinked_nuc] at hv
    rw [spliceLinked_id]
    rcases List.mem_append.mp hv with h1 | h2
    · have := htags v h1
      omega
    · have := List.eq_of_mem_replicate h2
      omega
  · rw [spliceLinked_active]
    exact nodup_keys_after_insert l.active _ l.next_te_id _ hnd
      (fun q hq => (hact q hq).2.1)
  · intro q hq
    rw [spliceLinked_active] at hq
    simp only [spliceLinked_id, hN, htag2]
    rcases mem_dictSet_fresh l.active _ l.next_te_id _ q
      (fun r hr => (hact r hr).2.1) hq with ⟨hmem, hneq⟩ | hnew
    · obtain ⟨h1q, h2q, h3q, mt, hmt, hanc, hblk⟩ := hact q hmem
      refine ⟨h1q, by omega, h3q, ?_⟩
      have hout : ¬ (mt ≤ m ∧ m < mt + q.2.2) := by
        intro hc
        have hcontra := (hblk.2 m (by omega)).mpr hc
        rw [ht0] at hcontra
        exact hneq hcontra.symm
      by_cases hcase : mt + q.2.2 ≤ m
      · refine ⟨mt, by omega, ?_, ?_⟩
        · rw [hnth mt, if_pos (by omega)]
          exact hanc
        · exact isBlockAt_splice_left (tagsOf l vs) l.next_te_id q.1 q.2.2
            mt m len (by omega) hblk (by omega) hcase
      · have hcase2 : m ≤ mt := by omega
        refine ⟨mt + len, by omega, ?_, ?_⟩
        · rw [hnth (mt + len), if_neg (by omega), if_neg (by omega)]
          have he : mt + len - len = mt := by omega
          rw [he]
          exact hanc
        · exact isBlockAt_splice_right (tagsOf l vs) l.next_te_id q.1 q.2.2
            mt m len (by omega) hblk (by omega) hcase2 h3q
    · rw [hnew]
      refine ⟨by omega, by omega, hlen, m, by omega, ?_, ?_⟩
      · rw [hnth m, if_neg (by omega), if_pos (by omega)]
        show vs.length + (m - m) = l.nuc.length
        omega
      · exact isBlockAt_new (tagsOf l vs) l.next_te_id m len (by omega) hlen
          (fun i hi => by
            have := tagsOf_getD_lt hcyc l.next_te_id htags i (by omega)
            omega)

theorem linv_zero {l : LinkedListGenome} {vs : List Nat} (hL : LInv l vs)
    (len : Nat) (hlen : 1 ≤ len) :
    LInv (spliceLinked l (nthv vs 0) len)
      (vsCut vs vs.length vs.length len) := by
  obtain ⟨⟨hcyc, hhead⟩, hid1, htags, hnd, hact⟩ := hL
  have hpos := hcyc.len_pos
  have hnucl := hcyc.2.1
  have hN := length_vsCut vs vs.length vs.length len (by omega)
  have htag2 := tagsOf_vsCut hcyc vs.length len
  have hnodeeq : nthv vs vs.length = nthv vs 0 := by
    have h1 : nthv vs vs.length = 0 := getD_oob vs vs.length (le_refl _)
    rw [h1, hhead]
  rw [hnodeeq] at htag2
  have hxl : (tagsOf l vs).length = vs.length := length_tagsOf l vs
  have hnth := fun x => nthv_vsCut vs vs.length vs.length len (by omega) x
  have ht0 : (tagsOf l vs).getD 0 0 = l.nuc.getD (nthv vs 0) 0 :=
    tagsOf_getD l vs 0 hpos
  have heq : vsCut vs vs.length vs.length len =
      (vsCut vs vs.length 0 len).rotate len := by
    rw [vsCut_zero_rotate, vsCut, List.take_length, List.drop_length,
      List.append_nil]
  refine ⟨⟨?_, ?_⟩, ?_, ?_, ?_, ?_⟩
  · rw [heq]
    exact cyc_rotate (cyc_spliceLinked hcyc 0 len hpos hlen) len
  · rw [hnth 0, if_pos (by omega)]
    exact hhead
  · rw [spliceLinked_id]
    omega
  · intro v hv
    rw [spliceLinked_nuc] at hv
    rw [spliceLinked_id]
    rcases List.mem_append.mp hv with h1 | h2
    · have := htags v h1
      omega
    · have := List.eq_of_mem_replicate h2
      omega
  · rw [spliceLinked_active]
    exact nodup_keys_after_insert l.active _ l.next_te_id _ hnd
      (fun q hq => (hact q hq).2.1)
  · intro q hq
    rw [spliceLinked_active] at hq
    simp only [spliceLinked_id, hN, htag2]
    rcases mem_dictSet_fresh l.active _ l.next_te_id _ q
      (fun r hr => (hact r hr).2.1) hq with ⟨hmem, hneq⟩ | hnew
    · obtain ⟨h1q, h2q, h3q, mt, hmt, hanc, hblk⟩ := hact q hmem
      have hb1 := hblk.1
      refine ⟨h1q, by omega, h3q, mt, by omega, ?_, ?_⟩
      · rw [hnth mt, if_pos (by omega)]
        exact hanc
      · exact isBlockAt_splice_left (tagsOf l vs) l.next_te_id q.1 q.2.2
          mt vs.length len (by omega) hblk (by omega) (by omega)
    · rw [hnew]
      refine ⟨by omega, by omega, hlen, vs.length, by omega, ?_, ?_⟩
      · rw [hnth vs.length, if_neg (by omega), if_pos (by omega)]
        show vs.length + (vs.length - vs.length) = l.nuc.length
        omega
      · exact isBlockAt_new (tagsOf l vs) l.next_te_id vs.length len
          (by omega) hlen
          (fun i hi => by
            have := tagsOf_getD_lt hcyc l.next_te_id htags i (by omega)
            omega)

/-! ### Preservation of the dense invariant -/

theorem dinv_insert {g : ListGenome} (hD : DInv g) (p len : Nat)
    (hp : p < g.nuc.length) (hlen : 1 ≤ len) :
    DInv { next_te_id := g.next_te_id + 1,
           nuc := g.nuc.take p ++ List.replicate len g.next_te_id ++
             g.nuc.drop p,
           active := dictSet (collide g.active (g.nuc.getD p 0))
             g.next_te_id len } := by
  obtain ⟨hid1, htags, hnd, hact⟩ := hD
  refine ⟨?_, ?_, ?_, ?_⟩
  · show 1 ≤ g.next_te_id + 1
    omega
  · intro v hv
    show v < g.next_te_id + 1
    rcases List.mem_append.mp hv with h1 | h2
    · rcases List.mem_append.mp h1 with h3 | h4
      · have := htags v (List.mem_of_mem_take h3)
        omega
      · have := List.eq_of_mem_replicate h4
        omega
    · have := htags v (List.mem_of_mem_drop h2)
      omega
  · exact nodup_keys_after_insert g.active _ g.next_te_id _ hnd
      (fun q hq => (hact q hq).2.1)
  · intro q hq
    show 1 ≤ q.1 ∧ q.1 < g.next_te_id + 1 ∧ 1 ≤ q.2 ∧
      IsBlock (g.nuc.take p ++ List.replicate len g.next_te_id ++
        g.nuc.drop p) q.1 q.2
    have hL := length_splice g.nuc (List.replicate len g.next_te_id) p
      (by omega)
    rw [List.length_replicate] at hL
    rcases mem_dictSet_fresh g.active _ g.next_te_id _ q
      (fun r hr => (hact r hr).2.1) hq with ⟨hmem, hneq⟩ | hnew
    · obtain ⟨h1q, h2q, h3q, pt, hptl, hblk⟩ := hact q hmem
      have hb1 := hblk.1
      refine ⟨h1q, by omega, h3q, ?_⟩
      have hout : ¬ (pt ≤ p ∧ p < pt + q.2) := by
        intro hc
        have hcontra := (hblk.2 p hp).mpr hc
        exact hneq hcontra.symm
      by_cases hcase : pt + q.2 ≤ p
      · exact ⟨pt, by omega,
          isBlockAt_splice_left g.nuc g.next_te_id q.1 q.2 pt p len
            (by omega) hblk (by omega) hcase⟩
      · have hcase2 : p ≤ pt := by omega
        exact ⟨pt + len, by omega,
          isBlockAt_splice_right g.nuc g.next_te_id q.1 q.2 pt p len
            (by omega) hblk (by omega) hcase2 h3q⟩
    · rw [hnew]
      refine ⟨by omega, by omega, hlen, p, by omega, ?_⟩
      exact isBlockAt_new g.nuc g.next_te_id p len (by omega) hlen
        (fun i hi => by
          have hlt : g.nuc.getD i 0 < g.next_te_id := by
            refine htags _ ?_
            rw [List.getD_eq_getElem _ _ hi]
            exact List.getElem_mem hi
          omega)

theorem dinv_new (n : Nat) : DInv (ListGenome.new n) := by
  refine ⟨?_, ?_, ?_, ?_⟩
  · show 1 ≤ 1
    omega
  · intro v hv
    have hv2 : v ∈ List.replicate n 0 := hv
    have := List.eq_of_mem_replicate hv2
    show v < 1
    omega
  · show (([] : List (Nat × Nat)).map Prod.fst).Nodup
    simp
  · intro q hq
    have hq2 : q ∈ ([] : List (Nat × Nat)) := hq
    simp at hq2

/-! ### Projection of the linked registry onto the dense registry -/

theorem collide_proj (m : List (Nat × (Nat × Nat))) (t0 : Nat) :
    (collide m t0).map (fun q => (q.1, q.2.2)) =
      collide (m.map (fun q => (q.1, q.2.2))) t0 := by
  rw [collide, collide, keyFind_proj]
  by_cases hs : (keyFind m t0).isSome
  · have hs2 : ((keyFind m t0).map Prod.snd).isSome = true := by
      cases hf : keyFind m t0 with
      | none => rw [hf] at hs; simp at hs
      | some v => rfl
    rw [if_pos hs, if_pos hs2]
    exact keyDel_proj m t0
  · have hs2 : ¬ ((keyFind m t0).map Prod.snd).isSome = true := by
      cases hf : keyFind m t0 with
      | none => simp
      | some v => rw [hf] at hs; simp at hs
    rw [if_neg hs, if_neg hs2]

theorem dictSet_proj_fresh (m : List (Nat × (Nat × Nat))) (t0 nid : Nat)
    (n0 len : Nat) (hb : ∀ r ∈ m, r.1 < nid) :
    (dictSet (collide m t0) nid (n0, len)).map (fun q => (q.1, q.2.2)) =
      dictSet (collide (m.map (fun q => (q.1, q.2.2))) t0) nid len := by
  have hfresh : keyFind (collide m t0) nid = none := by
    rw [keyFind_eq_none_iff]
    intro r hr
    have := hb r (mem_collide m t0 r hr).1
    omega
  have hfresh2 : keyFind (collide (m.map (fun q => (q.1, q.2.2))) t0) nid =
      none := by
    rw [← collide_proj, keyFind_proj, hfresh]
    rfl
  rw [dictSet_fresh _ _ _ hfresh, dictSet_fresh _ _ _ hfresh2,
    List.map_append, collide_proj]
  rfl

/-! ### The fresh genomes satisfy the invariants -/

theorem linv_new (n : Nat) (hn : 1 ≤ n) :
    LInv (LinkedListGenome.new n) (List.range n) := by
  have hlen : (List.range n).length = n := List.length_range n
  have hnth : ∀ k, k < n → nthv (List.range n) k = k := by
    intro k hk
    rw [nthv, getD0_get?, List.get?_range hk]
    rfl
  refine ⟨⟨⟨?_, ?_, ?_, ?_, ?_, ?_, ?_⟩, ?_⟩, ?_, ?_, ?_, ?_⟩
  · omega
  · show (List.replicate n 0).length = (List.range n).length
    rw [List.length_replicate, hlen]
  · show ((List.range n).map (fun i => (i + 1) % n)).length =
      (List.range n).length
    rw [List.length_map]
  · show ((List.range n).map (fun i => (i + n - 1) % n)).length =
      (List.range n).length
    rw [List.length_map]
  · rw [hlen]
  · intro k hk
    rw [hlen] at hk
    have hrg : (List.range n).getD k 0 = k := by
      rw [getD0_get?, List.get?_range hk]
      rfl
    rw [hnth k hk]
    show ((List.range n).map (fun i => (i + 1) % n)).getD k 0 =
      nthv (List.range n) ((k + 1) % (List.range n).length)
    rw [getD_map_lt (List.range n) _ k 0 0 (by omega), hrg, hlen,
      hnth ((k + 1) % n) (Nat.mod_lt _ (by omega))]
  · intro k hk
    rw [hlen] at hk
    have hrg : (List.range n).getD k 0 = k := by
      rw [getD0_get?, List.get?_range hk]
      rfl
    rw [hnth k hk]
    show ((List.range n).map (fun i => (i + n - 1) % n)).getD k 0 =
      nthv (List.range n) ((k + (List.range n).length - 1) %
        (List.range n).length)
    rw [getD_map_lt (List.range n) _ k 0 0 (by omega), hrg, hlen,
      hnth ((k + n - 1) % n) (Nat.mod_lt _ (by omega))]
  · rw [hnth 0 (by omega)]
  · show 1 ≤ 1
    omega
  · intro v hv
    have hv2 : v ∈ List.replicate n 0 := hv
    have := List.eq_of_mem_replicate hv2
    show v < 1
    omega
  · show (([] : List (Nat × Nat × Nat)).map Prod.fst).Nodup
    simp
  · intro q hq
    have hq2 : q ∈ ([] : List (Nat × Nat × Nat)) := hq
    simp at hq2

theorem sim_new (n : Nat) (hn : 1 ≤ n) :
    Sim (ListGenome.new n) (LinkedListGenome.new n) (List.range n) := by
  refine ⟨dinv_new n, linv_new n hn, rfl, ?_, rfl⟩
  show (List.range n).map
      (fun v => (List.replicate n 0).getD v 0) = List.replicate n 0
  refine List.ext_getElem ?_ ?_
  · rw [List.length_map, List.length_range, List.length_replicate]
  · intro i h1 h2
    rw [List.getElem_map, List.getElem_range, List.getElem_replicate]
    rw [List.length_map, List.length_range] at h1
    exact getD_replicate0 n 0 i h1
/-! ### Helper lemmas for the step-level refinement -/

theorem pyGetIdx_lt (n : Nat) (pos : Int) (p : Nat)
    (h : pyGetIdx n pos = some p) : p < n := by
  rw [pyGetIdx] at h
  by_cases h1 : 0 ≤ pos
  · rw [if_pos h1] at h
    by_cases h2 : pos < (n : Int)
    · rw [if_pos h2] at h
      have hp : pos.toNat = p := Option.some_inj.mp h
      omega
    · rw [if_neg h2] at h
      exact Option.noConfusion h
  · rw [if_neg h1] at h
    by_cases h2 : -(n : Int) ≤ pos
    · rw [if_pos h2] at h
      have hp : (pos + (n : Int)).toNat = p := Option.some_inj.mp h
      omega
    · rw [if_neg h2] at h
      exact Option.noConfusion h

theorem pyGetIdx_isSome_iff (n : Nat) (pos : Int) :
    (pyGetIdx n pos).isSome = true ↔
      (-(n : Int) ≤ pos ∧ pos < (n : Int)) := by
  rw [pyGetIdx]
  by_cases h1 : 0 ≤ pos
  · rw [if_pos h1]
    by_cases h2 : pos < (n : Int)
    · rw [if_pos h2]
      exact ⟨fun _ => ⟨by omega, h2⟩, fun _ => rfl⟩
    · rw [if_neg h2]
      exact ⟨fun h => absurd h (by decide), fun hc => absurd hc.2 h2⟩
  · rw [if_neg h1]
    by_cases h2 : -(n : Int) ≤ pos
    · rw [if_pos h2]
      exact ⟨fun _ => ⟨h2, by omega⟩, fun _ => rfl⟩
    · rw [if_neg h2]
      exact ⟨fun h => absurd h (by decide), fun hc => absurd hc.1 h2⟩

theorem keyDel_keys_sublist {β : Type} (m : List (Nat × β)) (k : Nat) :
    ((keyDel m k).map Prod.fst).Sublist (m.map Prod.fst) := by
  rw [keyDel]
  exact (List.filter_sublist m).map Prod.fst

theorem dinv_disable {g : ListGenome} (hD : DInv g) (te : Nat) :
    DInv (g.disable_te te) := by
  obtain ⟨hid1, htags, hnd, hact⟩ := hD
  rw [ListGenome.disable_te]
  by_cases hs : (keyFind g.active te).isSome
  · rw [if_pos hs]
    refine ⟨hid1, htags, ?_, ?_⟩
    · show ((keyDel g.active te).map Prod.fst).Nodup
      exact hnd.sublist (keyDel_keys_sublist g.active te)
    · intro q hq
      exact hact q (keyDel_subset g.active te q hq)
  · rw [if_neg hs]
    exact ⟨hid1, htags, hnd, hact⟩

theorem linv_disable {l : LinkedListGenome} {vs : List Nat}
    (hL : LInv l vs) (te : Nat) : LInv (l.disable_te te) vs := by
  obtain ⟨hcwf, hid1, htags, hnd, hact⟩ := hL
  rw [LinkedListGenome.disable_te]
  by_cases hs : (keyFind l.active te).isSome
  · rw [if_pos hs]
    refine ⟨hcwf, hid1, htags, ?_, ?_⟩
    · show ((keyDel l.active te).map Prod.fst).Nodup
      exact hnd.sublist (keyDel_keys_sublist l.active te)
    · intro q hq
      exact hact q (keyDel_subset l.active te q hq)
  · rw [if_neg hs]
    exact ⟨hcwf, hid1, htags, hnd, hact⟩

theorem tagChar_proj (m : List (Nat × (Nat × Nat))) (a : Nat) :
    tagChar m a = tagChar (m.map (fun q => (q.1, q.2.2))) a := by
  rw [tagChar, tagChar, keyFind_proj]
  have hiso : ((keyFind m a).map Prod.snd).isSome = (keyFind m a).isSome := by
    cases keyFind m a with
    | none => rfl
    | some v => rfl
  rw [hiso]

theorem step_new_zero (op : Op) :
    (LinkedListGenome.new 0).step op = none ∨
    ∃ r, (LinkedListGenome.new 0).step op =
      some (r, LinkedListGenome.new 0) := by
  cases op with
  | ins pos len =>
    left
    have hins : (LinkedListGenome.new 0).insert_te pos len = none := by
      rw [LinkedListGenome.insert_te]
      have hgi : (LinkedListGenome.new 0).get_index pos = some 0 ∨
          (LinkedListGenome.new 0).get_index pos = none := by
        rw [LinkedListGenome.get_index]
        cases pos.toNat with
        | zero => exact Or.inl rfl
        | succ k => exact Or.inr rfl
      rcases hgi with h | h
      · simp only [h]
        rfl
      · simp only [h]
    simp only [LinkedListGenome.step, hins]
  | cpy te offset => exact Or.inr ⟨none, rfl⟩
  | dis te => exact Or.inr ⟨none, rfl⟩

theorem run_zero : ∀ (ops : List Op) (l2 : LinkedListGenome),
    (LinkedListGenome.new 0).run ops = some l2 →
    l2 = LinkedListGenome.new 0
  | [], l2, h => (Option.some_inj.mp h).symm
  | op :: ops, l2, h => by
    rcases step_new_zero op with hs | ⟨r, hs⟩
    · simp only [LinkedListGenome.run, hs] at h
      exact Option.noConfusion h
    · simp only [LinkedListGenome.run, hs] at h
      exact run_zero ops l2 h
/-! ### The core refinement step: splicing at a nonzero circular position -/

theorem sim_splice {g : ListGenome} {l : LinkedListGenome} {vs : List Nat}
    (hS : Sim g l vs) (p len : Nat) (hp1 : 1 ≤ p) (hp : p < vs.length)
    (hlen : 1 ≤ len) :
    l.insert_te_at_index (nthv vs p) len =
      some (l.next_te_id, spliceLinked l (nthv vs p) len) ∧
    Sim { next_te_id := g.next_te_id + 1,
          nuc := g.nuc.take p ++ List.replicate len g.next_te_id ++
            g.nuc.drop p,
          active := dictSet (collide g.active (g.nuc.getD p 0))
            g.next_te_id len }
        (spliceLinked l (nthv vs p) len) (vsCut vs vs.length p len) := by
  obtain ⟨hD, hL, hid, htg, hreg⟩ := hS
  obtain ⟨⟨hcyc, hhead⟩, hid1, htags, hnd, hact⟩ := hL
  have hnucl := hcyc.2.1
  have hglen : g.nuc.length = vs.length := by
    rw [← htg, length_tagsOf]
  have hnode : nthv vs p < l.nuc.length := by
    have := hcyc.nthv_lt p hp
    omega
  have hjlt : l.prev.getD (nthv vs p) 0 < l.nuc.length := by
    have hpr := hcyc.2.2.2.2.2.2 p hp
    rw [hpr]
    have := hcyc.nthv_lt ((p + vs.length - 1) % vs.length)
      (Nat.mod_lt _ (by omega))
    omega
  have hhit : l.nuc.getD (nthv vs p) 0 = g.nuc.getD p 0 := by
    rw [← htg]
    exact (tagsOf_getD l vs p hp).symm
  have heq := LinkedListGenome.insert_at_index_eq l (nthv vs p) len hnode
    (by rw [hcyc.2.2.1, hnucl]) (by rw [hcyc.2.2.2.1, hnucl]) hjlt
  refine ⟨heq, ?_, ?_, ?_, ?_, ?_⟩
  · exact dinv_insert hD p len (by omega) hlen
  · exact linv_cut ⟨⟨hcyc, hhead⟩, hid1, htags, hnd, hact⟩ p len hp1 hp hlen
  · rw [spliceLinked_id, hid]
  · rw [tagsOf_vsCut hcyc p len, htg, ← hid]
  · rw [spliceLinked_active,
      dictSet_proj_fresh l.active (l.nuc.getD (nthv vs p) 0) l.next_te_id
        l.nuc.length len (fun r hr => (hact r hr).2.1),
      hreg, hhit, ← hid]
/-! ### One valid interface call preserves the refinement relation -/

theorem sim_step {g : ListGenome} {l : LinkedListGenome} {vs : List Nat}
    (hS : Sim g l vs) (op : Op) (hok : okOpB g op = true) :
    ∃ r g2 l2 vs2, g.step op = some (r, g2) ∧ l.step op = some (r, l2) ∧
      Sim g2 l2 vs2 := by
  have hglen : g.nuc.length = vs.length := by
    rw [← hS.2.2.2.1, length_tagsOf]
  have hnpos : 0 < vs.length := hS.2.1.1.1.len_pos
  cases op with
  | ins pos len =>
    simp only [okOpB, Bool.and_eq_true, decide_eq_true_eq] at hok
    obtain ⟨⟨hp1, hp2⟩, hlen⟩ := hok
    rw [hglen] at hp2
    have hp : pos.toNat < vs.length := by omega
    have hp1n : 1 ≤ pos.toNat := by omega
    have hgidx : l.get_index pos = some (nthv vs pos.toNat) := by
      rw [LinkedListGenome.get_index_cyc hS.2.1.1 pos, cycNode_mod,
        Nat.mod_eq_of_lt hp]
    have hpy : pyGetIdx g.nuc.length pos = some pos.toNat := by
      rw [pyGetIdx, if_pos (by omega), if_pos (by omega)]
    obtain ⟨hins, hsim⟩ := sim_splice hS pos.toNat len hp1n hp hlen
    refine ⟨some g.next_te_id, _, _, vsCut vs vs.length pos.toNat len,
      ?_, ?_, hsim⟩
    · simp only [ListGenome.step, ListGenome.insert_te, hpy]
    · simp only [LinkedListGenome.step, LinkedListGenome.insert_te, hgidx,
        hins, ← hS.2.2.1]
  | cpy te offset =>
    cases hf : keyFind g.active te with
    | none =>
      have hfl : keyFind l.active te = none := by
        have hpj := keyFind_proj l.active te
        rw [hS.2.2.2.2, hf] at hpj
        cases hfl2 : keyFind l.active te with
        | none => rfl
        | some v =>
          rw [hfl2] at hpj
          exact Option.noConfusion hpj
      refine ⟨none, g, l, vs, ?_, ?_, hS⟩
      · simp only [ListGenome.step, ListGenome.copy_te, hf]
      · simp only [LinkedListGenome.step, LinkedListGenome.copy_te, hfl]
    | some k =>
      cases hq : g.nuc.findIdx? (· = te) with
      | none =>
        simp only [okOpB, hf, hq] at hok
        exact Bool.noConfusion hok
      | some q0 =>
        simp only [okOpB, hf, hq, decide_eq_true_eq] at hok
        have hpj := keyFind_proj l.active te
        rw [hS.2.2.2.2, hf] at hpj
        cases hfl : keyFind l.active te with
        | none =>
          rw [hfl] at hpj
          exact Option.noConfusion hpj
        | some ak =>
          obtain ⟨a1, k1⟩ := ak
          rw [hfl] at hpj
          have hk2 : k1 = k := by
            simp only [Option.map_some', Option.some_inj] at hpj
            exact hpj.symm
          have hmem : (te, (a1, k1)) ∈ l.active :=
            keyFind_mem l.active te (a1, k1) hfl
          obtain ⟨h1q, h2q, h3q, m, hm, hanc, hblk⟩ :=
            hS.2.1.2.2.2.2 (te, (a1, k1)) hmem
          have hblk2 : IsBlockAt g.nuc te k1 m := by
            rw [← hS.2.2.2.1]
            exact hblk
          have hfq : g.nuc.findIdx? (· = te) = some m :=
            findIdx?_of_blockAt g.nuc te k1 m hblk2 h3q
          have hq0 : q0 = m := by
            rw [hfq] at hq
            exact (Option.some_inj.mp hq).symm
          have hz0 : 0 ≤ ((m : Int) + offset) % (vs.length : Int) :=
            Int.emod_nonneg _ (by omega)
          have hzlt : ((m : Int) + offset) % (vs.length : Int) <
              (vs.length : Int) :=
            Int.emod_lt_of_pos _ (by omega)
          have hzg : (((q0 : Int) + offset) % ((g.nuc.length : Nat) : Int)) =
              ((m : Int) + offset) % (vs.length : Int) := by
            rw [hq0, hglen]
          have hzne : ((m : Int) + offset) % (vs.length : Int) ≠ 0 := by
            rw [← hzg]
            exact hok
          have hp : (((m : Int) + offset) % (vs.length : Int)).toNat <
              vs.length := by omega
          have hp1 : 1 ≤ (((m : Int) + offset) % (vs.length : Int)).toNat := by
            omega
          have hpy : pyGetIdx g.nuc.length
              (((m : Int) + offset) % (vs.length : Int)) =
              some ((((m : Int) + offset) % (vs.length : Int)).toNat) := by
            rw [pyGetIdx, if_pos hz0, if_pos (by rw [hglen]; exact hzlt)]
          have hanc1 : nthv vs m = a1 := hanc
          have hanc2 : a1 = cycNode vs m := by
            rw [cycNode_mod, Nat.mod_eq_of_lt hm, ← hanc1]
          have hmo : l.move_offset a1 offset =
              some (nthv vs ((((m : Int) + offset) %
                (vs.length : Int)).toNat)) := by
            rw [hanc2, LinkedListGenome.move_offset_cyc hS.2.1.1.1 m offset]
            rfl
          obtain ⟨hins, hsim⟩ := sim_splice hS
            ((((m : Int) + offset) % (vs.length : Int)).toNat) k1 hp1 hp h3q
          refine ⟨some g.next_te_id, _, _, _, ?_, ?_, hsim⟩
          · simp only [ListGenome.step, ListGenome.copy_te, hf, hq,
              ListGenome.insert_te, hzg, hpy, ← hk2]
          · simp only [LinkedListGenome.step, LinkedListGenome.copy_te, hfl,
              hmo, hins, ← hS.2.2.1]
  | dis te =>
    refine ⟨none, g.disable_te te, l.disable_te te, vs, rfl, rfl, ?_⟩
    obtain ⟨hD, hL, hid, htg, hreg⟩ := hS
    have hiso : (keyFind l.active te).isSome = (keyFind g.active te).isSome := by
      rw [← hreg, keyFind_proj]
      cases keyFind l.active te with
      | none => rfl
      | some v => rfl
    rw [ListGenome.disable_te, LinkedListGenome.disable_te, hiso]
    by_cases hs : (keyFind g.active te).isSome
    · rw [if_pos hs, if_pos hs]
      refine ⟨?_, ?_, hid, htg, ?_⟩
      · obtain ⟨hid1, htags, hnd, hact⟩ := hD
        refine ⟨hid1, htags, ?_, ?_⟩
        · show ((keyDel g.active te).map Prod.fst).Nodup
          exact hnd.sublist (keyDel_keys_sublist g.active te)
        · intro q hq
          exact hact q (keyDel_subset g.active te q hq)
      · obtain ⟨hcwf, hid1, htags, hnd, hact⟩ := hL
        refine ⟨hcwf, hid1, htags, ?_, ?_⟩
        · show ((keyDel l.active te).map Prod.fst).Nodup
          exact hnd.sublist (keyDel_keys_sublist l.active te)
        · intro q hq
          exact hact q (keyDel_subset l.active te q hq)
      · show (keyDel l.active te).map (fun q => (q.1, q.2.2)) =
          keyDel g.active te
        rw [keyDel_proj, hreg]
    · rw [if_neg hs, if_neg hs]
      exact ⟨hD, hL, hid, htg, hreg⟩
/-! ### Refinement along a whole valid call sequence -/

theorem sim_run : ∀ (ops : List Op) (g : ListGenome) (l : LinkedListGenome)
    (vs : List Nat), Sim g l vs → okSeq g ops = true →
    ∃ g2 l2 vs2, g.run ops = some g2 ∧ l.run ops = some l2 ∧ Sim g2 l2 vs2
  | [], g, l, vs, hS, _ => ⟨g, l, vs, rfl, rfl, hS⟩
  | op :: ops, g, l, vs, hS, hok => by
    simp only [okSeq, Bool.and_eq_true] at hok
    obtain ⟨hop, hrest⟩ := hok
    obtain ⟨r, g2, l2, vs2, hg, hl, hS2⟩ := sim_step hS op hop
    simp only [hg] at hrest
    obtain ⟨g3, l3, vs3, hg3, hl3, hS3⟩ := sim_run ops g2 l2 vs2 hS2 hrest
    refine ⟨g3, l3, vs3, ?_, ?_, hS3⟩
    · simp only [ListGenome.run, hg]
      exact hg3
    · simp only [LinkedListGenome.run, hl]
      exact hl3

theorem sim_obs {g : ListGenome} {l : LinkedListGenome} {vs : List Nat}
    (hS : Sim g l vs) :
    l.str = some g.str ∧ l.active_tes = g.active_tes := by
  obtain ⟨hD, hL, hid, htg, hreg⟩ := hS
  constructor
  · rw [LinkedListGenome.str, LinkedListGenome.tags_cyc hL.1,
      Option.map_some', htg, ListGenome.str]
    congr 2
    refine List.map_congr_left ?_
    intro a _
    rw [tagChar_proj l.active a, hreg]
  · rw [LinkedListGenome.active_tes, ListGenome.active_tes, ← hreg,
      List.map_map]
    refine List.map_congr_left ?_
    intro q _
    rfl
/-- C1 (corrected): for any common size `n ≥ 1` and any call sequence that
is valid along the dense run (`okSeq`: every insertion at a position strictly
between 0 and the current length with length ≥ 1, every copy of an active TE
landing at a circular position other than 0, disables unrestricted), both
implementations succeed on every call, and afterwards the linked render
equals the dense render and the `active_tes()` lists coincide. -/
theorem dense_linked_equivalence (n : Nat) (hn : 1 ≤ n) (ops : List Op)
    (hok : okSeq (ListGenome.new n) ops = true) :
    ∃ g l, (ListGenome.new n).run ops = some g ∧
      (LinkedListGenome.new n).run ops = some l ∧
      l.str = some g.str ∧ l.active_tes = g.active_tes := by
  obtain ⟨g, l, vs, hg, hl, hS⟩ := sim_run ops (ListGenome.new n)
    (LinkedListGenome.new n) (List.range n) (sim_new n hn) hok
  obtain ⟨h1, h2⟩ := sim_obs hS
  exact ⟨g, l, hg, hl, h1, h2⟩

/-- Witness for C1: a concrete valid sequence (an interior insertion, a
self-copy landing at a nonzero position, a disable) on size 3, on which the
equivalence theorem applies. -/
theorem dense_linked_equivalence_witness :
    (1 ≤ 3 ∧
      okSeq (ListGenome.new 3) [Op.ins 1 2, Op.cpy 1 1, Op.dis 1] = true) ∧
    ∃ g l, (ListGenome.new 3).run [Op.ins 1 2, Op.cpy 1 1, Op.dis 1] =
        some g ∧
      (LinkedListGenome.new 3).run [Op.ins 1 2, Op.cpy 1 1, Op.dis 1] =
        some l ∧
      l.str = some g.str ∧ l.active_tes = g.active_tes :=
  ⟨⟨by decide, by decide⟩,
   dense_linked_equivalence 3 (by decide) [Op.ins 1 2, Op.cpy 1 1, Op.dis 1]
     (by decide)⟩

/-- C2 (corrected): `ListGenome.insert_te` succeeds exactly when
`-len(nuc) ≤ pos < len(nuc)` (Python indexing, including negative
positions), while `LinkedListGenome.insert_te` succeeds on every position
and length whenever the genome's circular list is well formed. -/
theorem insert_te_domain :
    (∀ (g : ListGenome) (pos : Int) (len : Nat),
      ((g.insert_te pos len).isSome = true) ↔
        (-(g.nuc.length : Int) ≤ pos ∧ pos < (g.nuc.length : Int))) ∧
    (∀ (l : LinkedListGenome) (vs : List Nat) (pos : Int) (len : Nat),
      CWF l vs → (l.insert_te pos len).isSome = true) := by
  constructor
  · intro g pos len
    rw [← pyGetIdx_isSome_iff g.nuc.length pos, ListGenome.insert_te]
    cases h : pyGetIdx g.nuc.length pos with
    | none => simp only [h, Option.isSome_none]
    | some p => simp only [h, Option.isSome_some]
  · intro l vs pos len hC
    have hcyc := hC.1
    have hpos := hcyc.len_pos
    have hnucl := hcyc.2.1
    rw [LinkedListGenome.insert_te, LinkedListGenome.get_index_cyc hC pos]
    have hi : cycNode vs pos.toNat < l.nuc.length := by
      have := cycNode_lt hcyc pos.toNat
      omega
    have hj : l.prev.getD (cycNode vs pos.toNat) 0 < l.nuc.length := by
      have hk : pos.toNat % vs.length < vs.length := Nat.mod_lt _ hpos
      have hpr := hcyc.2.2.2.2.2.2 _ hk
      rw [cycNode_mod, hpr]
      have := hcyc.nthv_lt
        ((pos.toNat % vs.length + vs.length - 1) % vs.length)
        (Nat.mod_lt _ hpos)
      omega
    have heq := LinkedListGenome.insert_at_index_eq l (cycNode vs pos.toNat)
      len hi (by rw [hcyc.2.2.1, hnucl]) (by rw [hcyc.2.2.2.1, hnucl]) hj
    simp only [heq]
    rfl

/-- Witness for C2: a negative in-range position succeeds on the dense
variant, and an out-of-range position succeeds on a well-formed linked
genome of size 2. -/
theorem insert_te_domain_witness :
    (((ListGenome.new 2).insert_te (-2) 1).isSome = true) ∧
    CWF (LinkedListGenome.new 2) [0, 1] ∧
    ((LinkedListGenome.new 2).insert_te 5 0).isSome = true :=
  ⟨(insert_te_domain.1 (ListGenome.new 2) (-2) 1).mpr (by decide),
   by decide,
   insert_te_domain.2 (LinkedListGenome.new 2) [0, 1] 5 0 (by decide)⟩
/-! ### Invariant preservation along arbitrary successful runs -/

theorem linv_insert_any {l : LinkedListGenome} {vs : List Nat}
    (hL : LInv l vs) (pos : Int) (len : Nat) (hlen : 1 ≤ len) :
    ∃ l2 vs2, l.insert_te pos len = some (l.next_te_id, l2) ∧
      LInv l2 vs2 := by
  have hcyc := hL.1.1
  have hpos := hcyc.len_pos
  have hnucl := hcyc.2.1
  have hmlt : pos.toNat % vs.length < vs.length := Nat.mod_lt _ hpos
  have hi : cycNode vs pos.toNat < l.nuc.length := by
    have := cycNode_lt hcyc pos.toNat
    omega
  have hj : l.prev.getD (cycNode vs pos.toNat) 0 < l.nuc.length := by
    have hpr := hcyc.2.2.2.2.2.2 _ hmlt
    rw [cycNode_mod, hpr]
    have := hcyc.nthv_lt
      ((pos.toNat % vs.length + vs.length - 1) % vs.length)
      (Nat.mod_lt _ hpos)
    omega
  have heq := LinkedListGenome.insert_at_index_eq l (cycNode vs pos.toNat)
    len hi (by rw [hcyc.2.2.1, hnucl]) (by rw [hcyc.2.2.2.1, hnucl]) hj
  have hstep : l.insert_te pos len =
      some (l.next_te_id, spliceLinked l (cycNode vs pos.toNat) len) := by
    rw [LinkedListGenome.insert_te, LinkedListGenome.get_index_cyc hL.1 pos]
    simp only [heq]
  by_cases h0 : pos.toNat % vs.length = 0
  · refine ⟨spliceLinked l (cycNode vs pos.toNat) len,
      vsCut vs vs.length vs.length len, hstep, ?_⟩
    have he : cycNode vs pos.toNat = nthv vs 0 := by
      rw [cycNode_mod, h0]
    rw [he]
    exact linv_zero hL len hlen
  · refine ⟨spliceLinked l (cycNode vs pos.toNat) len,
      vsCut vs vs.length (pos.toNat % vs.length) len, hstep, ?_⟩
    have he : cycNode vs pos.toNat = nthv vs (pos.toNat % vs.length) :=
      cycNode_mod vs pos.toNat
    rw [he]
    exact linv_cut hL (pos.toNat % vs.length) len (by omega) hmlt hlen

theorem dinv_step {g : ListGenome} {r : Option Nat} {g2 : ListGenome}
    {op : Op} (hD : DInv g)
    (hlen : ∀ pos len, op = Op.ins pos len → 1 ≤ len)
    (h : g.step op = some (r, g2)) : DInv g2 := by
  cases op with
  | ins pos len =>
    have hl1 : 1 ≤ len := hlen pos len rfl
    simp only [ListGenome.step, ListGenome.insert_te] at h
    cases hpy : pyGetIdx g.nuc.length pos with
    | none =>
      simp only [hpy] at h
      exact Option.noConfusion h
    | some p =>
      simp only [hpy, Option.some_inj, Prod.mk.injEq] at h
      rw [← h.2]
      exact dinv_insert hD p len (pyGetIdx_lt _ _ _ hpy) hl1
  | cpy te offset =>
    simp only [ListGenome.step, ListGenome.copy_te] at h
    cases hf : keyFind g.active te with
    | none =>
      simp only [hf, Option.some_inj, Prod.mk.injEq] at h
      rw [← h.2]
      exact hD
    | some k =>
      simp only [hf] at h
      cases hq : g.nuc.findIdx? (· = te) with
      | none =>
        simp only [hq] at h
        exact Option.noConfusion h
      | some q0 =>
        simp only [hq, ListGenome.insert_te] at h
        cases hpy : pyGetIdx g.nuc.length
            ((((q0 : Int) + offset) % (g.nuc.length : Int))) with
        | none =>
          simp only [hpy] at h
          exact Option.noConfusion h
        | some p =>
          simp only [hpy, Option.some_inj, Prod.mk.injEq] at h
          rw [← h.2]
          have hmem : (te, k) ∈ g.active := keyFind_mem g.active te k hf
          have hk1 : 1 ≤ k := (hD.2.2.2 (te, k) hmem).2.2.1
          exact dinv_insert hD p k (pyGetIdx_lt _ _ _ hpy) hk1
  | dis te =>
    simp only [ListGenome.step, Option.some_inj, Prod.mk.injEq] at h
    rw [← h.2]
    exact dinv_disable hD te

theorem linv_step {l : LinkedListGenome} {vs : List Nat} {r : Option Nat}
    {l2 : LinkedListGenome} {op : Op} (hL : LInv l vs)
    (hlen : ∀ pos len, op = Op.ins pos len → 1 ≤ len)
    (h : l.step op = some (r, l2)) : ∃ vs2, LInv l2 vs2 := by
  cases op with
  | ins pos len =>
    obtain ⟨l3, vs3, hins, hL3⟩ := linv_insert_any hL pos len
      (hlen pos len rfl)
    simp only [LinkedListGenome.step, hins, Option.some_inj,
      Prod.mk.injEq] at h
    rw [← h.2]
    exact ⟨vs3, hL3⟩
  | cpy te offset =>
    have hcyc := hL.1.1
    have hpos := hcyc.len_pos
    have hnucl := hcyc.2.1
    simp only [LinkedListGenome.step, LinkedListGenome.copy_te] at h
    cases hf : keyFind l.active te with
    | none =>
      simp only [hf, Option.some_inj, Prod.mk.injEq] at h
      rw [← h.2]
      exact ⟨vs, hL⟩
    | some ak =>
      obtain ⟨a1, k1⟩ := ak
      simp only [hf] at h
      have hmem : (te, (a1, k1)) ∈ l.active :=
        keyFind_mem l.active te (a1, k1) hf
      obtain ⟨h1q, h2q, h3q, m, hm, hanc, hblk⟩ := hL.2.2.2.2 (te, (a1, k1))
        hmem
      have hanc1 : nthv vs m = a1 := hanc
      have hanc2 : a1 = cycNode vs m := by
        rw [cycNode_mod, Nat.mod_eq_of_lt hm, ← hanc1]
      have hz0 : 0 ≤ ((m : Int) + offset) % (vs.length : Int) :=
        Int.emod_nonneg _ (by omega)
      have hzlt : ((m : Int) + offset) % (vs.length : Int) <
          (vs.length : Int) :=
        Int.emod_lt_of_pos _ (by omega)
      have hp : (((m : Int) + offset) % (vs.length : Int)).toNat <
          vs.length := by omega
      have hmo : l.move_offset a1 offset =
          some (nthv vs ((((m : Int) + offset) %
            (vs.length : Int)).toNat)) := by
        rw [hanc2, LinkedListGenome.move_offset_cyc hcyc m offset]
        rfl
      simp only [hmo] at h
      have hi : nthv vs ((((m : Int) + offset) % (vs.length : Int)).toNat) <
          l.nuc.length := by
        have := hcyc.nthv_lt _ hp
        omega
      have hj : l.prev.getD
          (nthv vs ((((m : Int) + offset) % (vs.length : Int)).toNat)) 0 <
          l.nuc.length := by
        have hpr := hcyc.2.2.2.2.2.2 _ hp
        rw [hpr]
        have := hcyc.nthv_lt
          (((((m : Int) + offset) % (vs.length : Int)).toNat +
            vs.length - 1) % vs.length) (Nat.mod_lt _ (by omega))
        omega
      have heq := LinkedListGenome.insert_at_index_eq l
        (nthv vs ((((m : Int) + offset) % (vs.length : Int)).toNat)) k1 hi
        (by rw [hcyc.2.2.1, hnucl]) (by rw [hcyc.2.2.2.1, hnucl]) hj
      simp only [heq, Option.some_inj, Prod.mk.injEq] at h
      rw [← h.2]
      by_cases h0 : (((m : Int) + offset) % (vs.length : Int)).toNat = 0
      · have he : nthv vs ((((m : Int) + offset) %
            (vs.length : Int)).toNat) = nthv vs 0 := by
          rw [h0]
        rw [he]
        exact ⟨vsCut vs vs.length vs.length k1, linv_zero hL k1 h3q⟩
      · exact ⟨vsCut vs vs.length
          ((((m : Int) + offset) % (vs.length : Int)).toNat) k1,
          linv_cut hL _ k1 (by omega) hp h3q⟩
  | dis te =>
    simp only [LinkedListGenome.step, Option.some_inj, Prod.mk.injEq] at h
    rw [← h.2]
    exact ⟨vs, linv_disable hL te⟩
theorem insLenOK_cons {op : Op} {ops : List Op}
    (hok : insLenOK (op :: ops) = true) :
    (∀ pos len, op = Op.ins pos len → 1 ≤ len) ∧ insLenOK ops = true := by
  cases op with
  | ins pos len =>
    have hok2 : (decide (1 ≤ len) && insLenOK ops) = true := hok
    simp only [Bool.and_eq_true, decide_eq_true_eq] at hok2
    refine ⟨fun p2 l2 he => ?_, hok2.2⟩
    injection he with h1 h2
    rw [← h2]
    exact hok2.1
  | cpy te offset => exact ⟨fun p2 l2 he => Op.noConfusion he, hok⟩
  | dis te => exact ⟨fun p2 l2 he => Op.noConfusion he, hok⟩

theorem dinv_run : ∀ (ops : List Op) (g : ListGenome), DInv g →
    insLenOK ops = true → ∀ g2, g.run ops = some g2 → DInv g2
  | [], g, hD, _, g2, h => by
    simp only [ListGenome.run, Option.some_inj] at h
    rw [← h]
    exact hD
  | op :: ops, g, hD, hok, g2, h => by
    obtain ⟨hlen1, hlen2⟩ := insLenOK_cons hok
    cases hstep : g.step op with
    | none =>
      simp only [ListGenome.run, hstep] at h
      exact Option.noConfusion h
    | some pr =>
      obtain ⟨r, g3⟩ := pr
      simp only [ListGenome.run, hstep] at h
      exact dinv_run ops g3 (dinv_step hD hlen1 hstep) hlen2 g2 h

theorem linv_run : ∀ (ops : List Op) (l : LinkedListGenome) (vs : List Nat),
    LInv l vs → insLenOK ops = true → ∀ l2, l.run ops = some l2 →
    ∃ vs2, LInv l2 vs2
  | [], l, vs, hL, _, l2, h => by
    simp only [LinkedListGenome.run, Option.some_inj] at h
    rw [← h]
    exact ⟨vs, hL⟩
  | op :: ops, l, vs, hL, hok, l2, h => by
    obtain ⟨hlen1, hlen2⟩ := insLenOK_cons hok
    cases hstep : l.step op with
    | none =>
      simp only [LinkedListGenome.run, hstep] at h
      exact Option.noConfusion h
    | some pr =>
      obtain ⟨r, l3⟩ := pr
      simp only [LinkedListGenome.run, hstep] at h
      obtain ⟨vs3, hL3⟩ := linv_step hL hlen1 hstep
      exact linv_run ops l3 vs3 hL3 hlen2 l2 h
/-- C3 (corrected): the dense render always has exactly `length()`
characters, and the linked render does too on every state reachable from a
genome of size at least 1 by calls whose insertions all have length at
least 1 (outside that regime the linked `__str__` can raise). -/
theorem render_length_eq :
    (∀ g : ListGenome, g.str.length = g.len) ∧
    (∀ (n : Nat) (ops : List Op) (l : LinkedListGenome), 1 ≤ n →
      insLenOK ops = true → (LinkedListGenome.new n).run ops = some l →
      ∃ s, l.str = some s ∧ s.length = l.len) := by
  constructor
  · intro g
    show (g.nuc.map (tagChar g.active)).length = g.nuc.length
    rw [List.length_map]
  · intro n ops l hn hok hrun
    obtain ⟨vs, hL⟩ := linv_run ops (LinkedListGenome.new n) (List.range n)
      (linv_new n hn) hok l hrun
    refine ⟨⟨(tagsOf l vs).map (tagChar l.active)⟩, ?_, ?_⟩
    · rw [LinkedListGenome.str, LinkedListGenome.tags_cyc hL.1,
        Option.map_some']
    · show ((tagsOf l vs).map (tagChar l.active)).length = l.nuc.length
      rw [List.length_map, length_tagsOf, hL.1.1.2.1]

/-- Witness for C3: the dense equation at a fresh genome of size 3, and the
linked equation after one length-1 insertion on a genome of size 2. -/
theorem render_length_eq_witness :
    (ListGenome.new 3).str.length = (ListGenome.new 3).len ∧
    ∃ l, (LinkedListGenome.new 2).run [Op.ins 1 1] = some l ∧
      ∃ s, l.str = some s ∧ s.length = l.len := by
  refine ⟨render_length_eq.1 (ListGenome.new 3), ?_⟩
  cases hrun : (LinkedListGenome.new 2).run [Op.ins 1 1] with
  | none => exact absurd hrun (by decide)
  | some l =>
    exact ⟨l, rfl,
      render_length_eq.2 2 [Op.ins 1 1] l (by decide) (by decide) hrun⟩

/-- C6 (confirmed): after any successful run whose insertions all have
length at least 1, every active TE of recorded length `k` occupies exactly
`k` contiguous slots carrying its id and no other slot carries it: in the
dense tag list for `ListGenome`, and in the traversal tag order for
`LinkedListGenome`. -/
theorem active_blocks_invariant :
    (∀ (n : Nat) (ops : List Op) (g : ListGenome), insLenOK ops = true →
      (ListGenome.new n).run ops = some g →
      ∀ q ∈ g.active, IsBlock g.nuc q.1 q.2) ∧
    (∀ (n : Nat) (ops : List Op) (l : LinkedListGenome),
      insLenOK ops = true → (LinkedListGenome.new n).run ops = some l →
      ∀ q ∈ l.active, ∃ ts, l.tags = some ts ∧ IsBlock ts q.1 q.2.2) := by
  constructor
  · intro n ops g hok hrun q hq
    exact ((dinv_run ops (ListGenome.new n) (dinv_new n) hok g
      hrun).2.2.2 q hq).2.2.2
  · intro n ops l hok hrun q hq
    by_cases hn : 1 ≤ n
    · obtain ⟨vs, hL⟩ := linv_run ops (LinkedListGenome.new n)
        (List.range n) (linv_new n hn) hok l hrun
      refine ⟨tagsOf l vs, LinkedListGenome.tags_cyc hL.1, ?_⟩
      obtain ⟨h1, h2, h3, m, hm, hanc, hblk⟩ := hL.2.2.2.2 q hq
      have hxl := length_tagsOf l vs
      exact ⟨m, by omega, hblk⟩
    · have hn0 : n = 0 := by omega
      rw [hn0] at hrun
      have hl0 := run_zero ops l hrun
      rw [hl0] at hq
      exact absurd hq (List.not_mem_nil q)

/-- Witness for C6: a concrete run with one length-2 insertion on each
variant, to which the invariant theorem applies. -/
theorem active_blocks_invariant_witness :
    insLenOK [Op.ins 1 2] = true ∧
    (∃ g, (ListGenome.new 3).run [Op.ins 1 2] = some g ∧
      ∀ q ∈ g.active, IsBlock g.nuc q.1 q.2) ∧
    (∃ l, (LinkedListGenome.new 3).run [Op.ins 1 2] = some l ∧
      ∀ q ∈ l.active, ∃ ts, l.tags = some ts ∧ IsBlock ts q.1 q.2.2) := by
  refine ⟨by decide, ?_, ?_⟩
  · cases hrun : (ListGenome.new 3).run [Op.ins 1 2] with
    | none => exact absurd hrun (by decide)
    | some g =>
      exact ⟨g, rfl,
        active_blocks_invariant.1 3 [Op.ins 1 2] g (by decide) hrun⟩
  · cases hrun : (LinkedListGenome.new 3).run [Op.ins 1 2] with
    | none => exact absurd hrun (by decide)
    | some l =>
      exact ⟨l, rfl,
        active_blocks_invariant.2 3 [Op.ins 1 2] l (by decide) hrun⟩
